import Mathlib

/-!
# Configuration::Parser (Grbl_Esp32 / FluidNC)

A shallow embedding of `Grbl_Esp32/src/Configuration/Parser.cpp` and theorems
about its navigation primitives (`moveNext`, `enter`, `leave`), key matching
(`is`) and typed accessors (`intValue`, `enumValue`).

Conventions of the embedding:

* a `const char*` is a `Nat` address, `nullptr` is address `0`;
* the document is a list of bytes placed at address `start_`;
* `int` values (indents, enum values) are `Int`; the code only compares and
  copies them, so no wrap-around arithmetic occurs;
* the scanner (`Tokenizer`, not part of `Parser.cpp`) is represented by the
  tokens its successive `Tokenize()` calls produce;
* a loop that never exits is reported as `none` / `LeaveResult.loops`;
* `leave()` on an empty stack is undefined behaviour (`top()` of an empty
  `std::stack`): the embedding follows the call up to that point, reports the
  state reached there as `LeaveResult.undefined`, and says nothing about how
  the call goes on.
-/

namespace Configuration

/-! ## Data model -/

/-- Modelled from the spec: the token kinds declared in `Tokenizer.h` (not among
the sources). `Parser.cpp` only ever tests for `TokenKind::Eof`; every other kind
is an entry. -/
inductive TokenKind
  | Eof
  | Entry
deriving DecidableEq, Repr

/-- The null pointer. -/
def nullptr : Nat := 0

/-- The constant `INT_MAX` of `<climits>` for a 32-bit `int`. -/
def INT_MAX : Int := 2147483647

/-- Modelled from the spec: the struct `Tokenizer::TokenData` declared in
`Tokenizer.h` (not among the sources); the fields are those `Parser.cpp` reads and
writes: key range, value range, kind and indent. -/
structure TokenData where
  keyStart_ : Nat
  keyEnd_ : Nat
  sValueStart_ : Nat
  sValueEnd_ : Nat
  kind_ : TokenKind
  indent_ : Int
deriving DecidableEq, Repr

/-- Modelled from the spec: the default constructor `TokenData()` of `Tokenizer.h`
(not among the sources): an empty entry, no key, no value, kind end-of-input,
indent zero. -/
def TokenData.new : TokenData :=
  { keyStart_ := nullptr, keyEnd_ := nullptr, sValueStart_ := nullptr,
    sValueEnd_ := nullptr, kind_ := TokenKind.Eof, indent_ := 0 }

/-- The state of a `Parser` object: the inherited `Tokenizer` part (`start_`, the
document bytes, the lookahead `token_`, and the tokens the scanner has yet to
produce) and the members of `Parser` itself (`current_`, `indentStack_`,
`indent_`). `indentStack_` lists the top of the stack first. -/
structure Parser where
  start_ : Nat
  buffer : List Nat
  token_ : TokenData
  pending : List TokenData
  eofToken : TokenData
  current_ : TokenData
  indentStack_ : List Int
  indent_ : Int
deriving DecidableEq, Repr

namespace Parser

/-- The byte stored at an address of the document; addresses outside the document
read as `0`. -/
def byteAt (p : Parser) (a : Nat) : Nat :=
  if p.start_ ≤ a then p.buffer.getD (a - p.start_) 0 else 0

/-- Modelled from the spec: `Tokenizer::Tokenize()` (`Tokenizer.cpp` is not among the
sources). One call advances the lookahead by one token: the next pending token, or,
when none is left, the end-of-input token, which is produced again on every further
call. Lexical errors of the scanner are outside this model. -/
def Tokenize (p : Parser) : Parser :=
  match p.pending with
  | [] => { p with token_ := p.eofToken }
  | t :: ts => { p with token_ := t, pending := ts }

/-- The tokens still to come, lookahead first: position `0` is `token_`, then the
pending tokens, then the end-of-input token for ever. -/
def upcoming (p : Parser) (i : Nat) : TokenData :=
  (p.token_ :: p.pending).getD i p.eofToken

/-- The state of the object before the body of the constructor runs: the scanner is
at the start of the document, `current_()` is value-initialised, the stack is empty.
The member `indent_` is taken to start at zero. -/
def initial (start : Nat) (buffer : List Nat) (tokens : List TokenData)
    (eofToken : TokenData) : Parser :=
  { start_ := start, buffer := buffer, token_ := TokenData.new, pending := tokens,
    eofToken := eofToken, current_ := TokenData.new, indentStack_ := [], indent_ := 0 }

/-- The constructor `Parser::Parser(start, end)`. -/
def create (start : Nat) (buffer : List Nat) (tokens : List TokenData)
    (eofToken : TokenData) : Parser :=
  let p0 := Tokenize (initial start buffer tokens eofToken)
  let p1 := { p0 with current_ := p0.token_ }
  if p1.current_.kind_ ≠ TokenKind.Eof then Tokenize p1 else p1

/-! ## Key matching -/

/-- The C function `strlen` on a string given by its bytes (the terminating NUL is
implicit after the last byte). -/
def strlen (s : List Nat) : Nat :=
  (s.takeWhile (fun b => b ≠ 0)).length

/-- The C function `strncmp(s1, s2, n)`: compares at most `n` bytes, stopping at the
first difference or at a NUL. The strings are given as byte readers. -/
def strncmp (s1 s2 : Nat → Nat) : Nat → Int
  | 0 => 0
  | n + 1 =>
    if s1 0 ≠ s2 0 then (s1 0 : Int) - (s2 0 : Int)
    else if s1 0 = 0 then 0
    else strncmp (fun i => s1 (i + 1)) (fun i => s2 (i + 1)) n

/-- The method `Parser::is(expected)`. The test `len != keyEnd_ - keyStart_` compares a
`size_t` with a pointer difference; it is taken over the integers, which is what the
machine computes whenever `keyStart_ ≤ keyEnd_` (so for every token of the scanner), and
for a reversed range whenever `expected` is shorter than `2^31` bytes. -/
def is (p : Parser) (expected : List Nat) : Bool :=
  if p.current_.keyStart_ = nullptr then false
  else
    let len := strlen expected
    if (len : Int) ≠ (p.current_.keyEnd_ : Int) - (p.current_.keyStart_ : Int) then false
    else decide (strncmp (fun i => expected.getD i 0)
      (fun i => p.byteAt (p.current_.keyStart_ + i)) len = 0)

/-! ## Navigation -/

/-- The loop `while (token_.indent_ > current_.indent_) Tokenize();` of `moveNext`,
run for at most `fuel + 1` tests of its condition; `none` when the condition still
holds after `fuel` advances. -/
def skipDeeper : Nat → Parser → Option Parser
  | 0, p => if p.token_.indent_ > p.current_.indent_ then none else some p
  | n + 1, p =>
    if p.token_.indent_ > p.current_.indent_ then skipDeeper n (Tokenize p) else some p

/-- The method `Parser::moveNext()`. After `pending.length + 1` advances the lookahead
is the end-of-input token and stays so, hence a loop that has not exited by then never
exits: the result is then `none`. -/
def moveNext (p : Parser) : Option (Bool × Parser) :=
  match skipDeeper (p.pending.length + 1) p with
  | none => none
  | some q =>
    let r :=
      if q.token_.indent_ = q.current_.indent_ then
        Tokenize { q with current_ := q.token_ }
      else
        { q with current_ := { q.current_ with kind_ := TokenKind.Eof } }
    some (decide (r.current_.kind_ ≠ TokenKind.Eof), r)

/-- The method `Parser::enter()`. -/
def enter (p : Parser) : Parser :=
  let p1 := { p with indentStack_ := p.current_.indent_ :: p.indentStack_ }
  let p2 :=
    if p1.token_.indent_ > p1.current_.indent_ then
      Tokenize { p1 with current_ := p1.token_ }
    else
      { p1 with current_ := { TokenData.new with indent_ := INT_MAX } }
  { p2 with indent_ := p2.current_.indent_ }

/-- The loop `while (token_.indent_ >= current_.indent_ && token_.kind_ != Eof)
Tokenize();` of `leave`, with the same fuel convention as `skipDeeper`. -/
def drain : Nat → Parser → Option Parser
  | 0, p =>
    if p.token_.indent_ ≥ p.current_.indent_ ∧ p.token_.kind_ ≠ TokenKind.Eof then none
    else some p
  | n + 1, p =>
    if p.token_.indent_ ≥ p.current_.indent_ ∧ p.token_.kind_ ≠ TokenKind.Eof then
      drain n (Tokenize p)
    else some p

/-- How a call of `leave()` ends. -/
inductive LeaveResult
  /-- The call returned, leaving the object in the given state. -/
  | returned (p : Parser)
  /-- The call came to evaluate `indentStack_.top()` on an empty stack, in the given
  state. For a `std::stack` this is undefined behaviour: the state is the one in which
  the undefined step is reached, and nothing is said about how the call goes on from
  there (it may return, in any state, or abort). -/
  | undefined (p : Parser)
  /-- The drain loop never exits. -/
  | loops
deriving DecidableEq, Repr

/-- The method `Parser::leave()`. The source does not test the stack before
`indentStack_.top()`; on an empty stack the embedding stops there. -/
def leave (p : Parser) : LeaveResult :=
  match drain (p.pending.length + 1) p with
  | none => LeaveResult.loops
  | some q =>
    match q.indentStack_ with
    | [] => LeaveResult.undefined q
    | last :: below =>
      let q1 := { q with indent_ := last, indentStack_ := below }
      if last = q1.token_.indent_ then
        LeaveResult.returned (Tokenize { q1 with current_ := q1.token_ })
      else
        LeaveResult.returned { q1 with current_ := { TokenData.new with indent_ := last } }

end Parser

/-! ## Typed value accessors -/

/-- Modelled from the spec: the class `StringRange` of `StringRange.h` (not among the
sources): a non-owning view of the bytes from `start_` up to `end_`. -/
structure StringRange where
  start_ : Nat
  end_ : Nat
deriving DecidableEq, Repr

/-- The bytes a view covers, read through `mem`. A view whose two pointers are null
covers nothing. -/
def StringRange.bytes (mem : Nat → Nat) (r : StringRange) : List Nat :=
  (List.range (r.end_ - r.start_)).map (fun i => mem (r.start_ + i))

/-- Modelled from the spec: `StringRange::equals(const char*)` (not among the sources),
byte-exact equality of the viewed text with a C string. -/
def StringRange.equals (mem : Nat → Nat) (r : StringRange) (o : List Nat) : Bool :=
  decide (r.bytes mem = o)

/-- The value of a run of decimal digits. -/
def digitsValue (ds : List Nat) : Nat :=
  ds.foldl (fun acc b => 10 * acc + (b - 48)) 0

/-- Modelled from the spec: `StringRange::isInteger(int32_t&)` (not among the sources),
the recogniser of a base-10 signed 32-bit integer: an optional minus sign, at least
one decimal digit, nothing else, and a value that fits in 32 bits. The result is the
value written through the reference, `none` when the call returns false. -/
def isIntegerText (text : List Nat) : Option Int :=
  let neg : Bool := text.head? = some 45
  let ds := if neg then text.tail else text
  if ds ≠ [] ∧ ds.all (fun b => decide (48 ≤ b ∧ b ≤ 57)) = true then
    let v : Int := if neg then -(digitsValue ds : Int) else (digitsValue ds : Int)
    if -2147483648 ≤ v ∧ v ≤ 2147483647 then some v else none
  else none

/-- Modelled from the spec: the positional failure value of `ParseException.h` (not
among the sources), as it is raised by the two paths of `Parser::parseError`. -/
inductive ParseException
  /-- The exception `ParseException(start_, current, description)`: raised at the
  address `current` of the document that starts at `start_`. -/
  | atAddress (start current : Nat) (description : String)
  /-- Modelled from the spec: the error raised by `Tokenizer::ParseError(description)`
  (not among the sources), positioned by the scanner itself. -/
  | atScanner (description : String)
deriving DecidableEq, Repr

/-- Modelled from the spec: the struct `EnumItem` of `EnumItem.h` (not among the
sources): a value and a name; the entry that ends a table has a null name. -/
structure EnumItem where
  value : Int
  name : Option (List Nat)
deriving DecidableEq, Repr

namespace Parser

/-- The value text of the cursor, `StringRange(current_.sValueStart_,
current_.sValueEnd_)`. -/
def valueRange (p : Parser) : StringRange :=
  { start_ := p.current_.sValueStart_, end_ := p.current_.sValueEnd_ }

/-- The bytes of the cursor's value text. -/
def valueText (p : Parser) : List Nat :=
  p.valueRange.bytes p.byteAt

/-- The method `Parser::parseError(description)`: the exception it throws. -/
def parseError (p : Parser) (description : String) : ParseException :=
  if p.current_.keyEnd_ ≠ nullptr then
    ParseException.atAddress p.start_ p.current_.keyEnd_ description
  else
    ParseException.atScanner description

/-- The method `Parser::boolValue()`. -/
def boolValue (p : Parser) : Bool :=
  p.valueRange.equals p.byteAt [116, 114, 117, 101]

/-- The method `Parser::intValue()`, over the recogniser `isInteger` of the view. -/
def intValue (isInteger : List Nat → Option Int) (p : Parser) : Except ParseException Int :=
  match isInteger p.valueText with
  | none => Except.error (p.parseError "Expected an integer value like 123")
  | some value => Except.ok value

/-- The method `Parser::enumValue(e)`: the table is the array `e` points into. Walking
past the last item of an array without a terminating entry is outside the model
(`none`). -/
def enumValue (p : Parser) : List EnumItem → Option Int
  | [] => none
  | e :: es =>
    match e.name with
    | none => some e.value
    | some name => if p.valueRange.equals p.byteAt name then some e.value else enumValue p es

end Parser

/-! ## The example document -/

/-- The bytes of a text. -/
def bytesOf (s : String) : List Nat :=
  s.toList.map Char.toNat

/-- The example document of the specification. -/
def exampleText : List Nat :=
  bytesOf "motor:\n  dir: true\n  speed: 120\nendstop:\n  pin: gpio.4\n"

/-- An entry token of the example document, by offsets from the start address 1000;
an entry without a value has offsets `0 0`. -/
def exampleEntry (keyStart keyEnd valueStart valueEnd : Nat) (indent : Int) : TokenData :=
  { keyStart_ := 1000 + keyStart, keyEnd_ := 1000 + keyEnd,
    sValueStart_ := if valueEnd = 0 then nullptr else 1000 + valueStart,
    sValueEnd_ := if valueEnd = 0 then nullptr else 1000 + valueEnd,
    kind_ := TokenKind.Entry, indent_ := indent }

/-- The tokens of the example document: `motor`, `dir: true`, `speed: 120`, `endstop`,
`pin: gpio.4`. -/
def exampleTokens : List TokenData :=
  [ exampleEntry 0 5 0 0 0, exampleEntry 9 12 14 18 2, exampleEntry 21 26 28 31 2,
    exampleEntry 32 39 0 0 0, exampleEntry 43 46 48 54 2 ]

/-- The end-of-input token of the example document. -/
def exampleEof : TokenData :=
  TokenData.new

/-- A freshly constructed parser over the example document. -/
def exampleParser : Parser :=
  Parser.create 1000 exampleText exampleTokens exampleEof

/-! ## Call sequences -/

/-- The three navigation calls. -/
inductive Op
  | moveNext
  | enter
  | leave
deriving DecidableEq, Repr

namespace Parser

/-- One navigation call on a state: the state it returns in, `none` when the call has no
defined result state (a loop that never exits, or `leave()` on an empty stack, whose
behaviour is undefined). -/
def step (op : Op) (p : Parser) : Option Parser :=
  match op with
  | Op.moveNext => (moveNext p).map Prod.snd
  | Op.enter => some (enter p)
  | Op.leave =>
    match leave p with
    | LeaveResult.returned q => some q
    | LeaveResult.undefined _ => none
    | LeaveResult.loops => none

/-- A sequence of navigation calls, first call first. -/
def run : List Op → Parser → Option Parser
  | [], p => some p
  | op :: ops, p => (step op p).bind (run ops)

/-- The results of `n` successive calls of `moveNext()` and the state they end in. -/
def moveNextTimes : Nat → Parser → Option (List Bool × Parser)
  | 0, p => some ([], p)
  | n + 1, p =>
    match moveNext p with
    | none => none
    | some (b, q) =>
      match moveNextTimes n q with
      | none => none
      | some (bs, r) => some (b :: bs, r)

/-! ## Invariants of the token stream -/

/-- The kinds of the tokens still to come are those of a finite stream: every pending
token is an entry, the end-of-input token has kind end-of-input, and a lookahead of
kind end-of-input is that token itself, with nothing pending after it. -/
def EofLast (p : Parser) : Prop :=
  (∀ t ∈ p.pending, t.kind_ ≠ TokenKind.Eof) ∧ p.eofToken.kind_ = TokenKind.Eof ∧
  (p.token_.kind_ = TokenKind.Eof → p.token_ = p.eofToken ∧ p.pending = [])

/-- No indent in the state is below that of the end-of-input token: the token has kind
end-of-input and its indent is at most that of every token still to come, of the
cursor, of every entry of the indent stack, and of `INT_MAX`. This is so for a scanner
that reports non-negative indents and indent zero at the end of input. -/
def EofShallowest (p : Parser) : Prop :=
  p.eofToken.kind_ = TokenKind.Eof ∧
  (∀ i, p.eofToken.indent_ ≤ (p.upcoming i).indent_) ∧
  p.eofToken.indent_ ≤ p.current_.indent_ ∧
  (∀ x ∈ p.indentStack_, p.eofToken.indent_ ≤ x) ∧
  p.eofToken.indent_ ≤ INT_MAX

end Parser

/-! ## Further example inputs -/

/-- A freshly constructed parser over the one-line document `key: value` placed at
address 1000: its cursor is on that entry. -/
def entryParser (key value : List Nat) : Parser :=
  Parser.create 1000 (key ++ [58, 32] ++ value)
    [{ keyStart_ := 1000, keyEnd_ := 1000 + key.length,
       sValueStart_ := 1000 + key.length + 2,
       sValueEnd_ := 1000 + key.length + 2 + value.length,
       kind_ := TokenKind.Entry, indent_ := 0 }]
    TokenData.new

/-- The enum table of the specification: `("A", 1)`, `("B", 2)`, then the terminating
entry with value `0`. -/
def exampleEnum : List EnumItem :=
  [ { value := 1, name := some (bytesOf "A") }, { value := 2, name := some (bytesOf "B") },
    { value := 0, name := none } ]

/-- A freshly constructed parser over a finite token stream whose end-of-input token is
deeper than its only entry: the entry `a` at indent 0, then an end-of-input token that
carries indent 2. -/
def deepEofParser : Parser :=
  Parser.create 1000 (bytesOf "a:\n  ") [exampleEntry 0 1 0 0 0]
    { TokenData.new with indent_ := 2 }

end Configuration

/-! ## Basic facts about the scanner -/

namespace Configuration
namespace Parser

theorem Tokenize_current (p : Parser) : (Tokenize p).current_ = p.current_ := by
  unfold Tokenize; split <;> rfl

theorem Tokenize_indentStack (p : Parser) : (Tokenize p).indentStack_ = p.indentStack_ := by
  unfold Tokenize; split <;> rfl

theorem Tokenize_eofToken (p : Parser) : (Tokenize p).eofToken = p.eofToken := by
  unfold Tokenize; split <;> rfl

theorem upcoming_zero (p : Parser) : p.upcoming 0 = p.token_ := by
  simp [upcoming]

theorem upcoming_Tokenize (p : Parser) (i : Nat) :
    (Tokenize p).upcoming i = p.upcoming (i + 1) := by
  unfold Tokenize upcoming
  split
  · rename_i h
    simp only [h]
    cases i <;> simp
  · rename_i t ts h
    simp only [h]
    simp

theorem upcoming_beyond (p : Parser) (i : Nat) (h : p.pending.length + 1 ≤ i) :
    p.upcoming i = p.eofToken := by
  unfold upcoming
  apply List.getD_eq_default
  simpa using h


/-- The loop of `moveNext` stops at the first upcoming token that is not deeper than
the cursor, having advanced the scanner once for every token before it. -/
theorem skipDeeper_spec (k : Nat) : ∀ (n : Nat) (p : Parser), k ≤ n →
    (∀ i, i < k → (p.upcoming i).indent_ > p.current_.indent_) →
    (p.upcoming k).indent_ ≤ p.current_.indent_ →
    skipDeeper n p = some (Tokenize^[k] p) := by
  induction k with
  | zero =>
    intro n p _ _ h0
    rw [upcoming_zero] at h0
    have hc : ¬ (p.token_.indent_ > p.current_.indent_) := not_lt.mpr h0
    cases n <;> simp [skipDeeper, hc]
  | succ k ih =>
    intro n p hn hlt hk
    have h0 : p.token_.indent_ > p.current_.indent_ := by
      have := hlt 0 (Nat.succ_pos k)
      rwa [upcoming_zero] at this
    cases n with
    | zero => omega
    | succ n =>
      simp only [skipDeeper, h0, if_true, Function.iterate_succ, Function.comp]
      apply ih n (Tokenize p) (by omega)
      · intro i hi
        rw [upcoming_Tokenize, Tokenize_current]
        exact hlt (i + 1) (by omega)
      · rw [upcoming_Tokenize, Tokenize_current]
        exact hk

theorem iterate_Tokenize_current (k : Nat) (p : Parser) :
    (Tokenize^[k] p).current_ = p.current_ := by
  induction k generalizing p with
  | zero => rfl
  | succ k ih => rw [Function.iterate_succ, Function.comp, ih, Tokenize_current]

theorem iterate_Tokenize_indentStack (k : Nat) (p : Parser) :
    (Tokenize^[k] p).indentStack_ = p.indentStack_ := by
  induction k generalizing p with
  | zero => rfl
  | succ k ih => rw [Function.iterate_succ, Function.comp, ih, Tokenize_indentStack]

theorem upcoming_iterate_Tokenize (k : Nat) (p : Parser) (i : Nat) :
    (Tokenize^[k] p).upcoming i = p.upcoming (k + i) := by
  induction k generalizing p with
  | zero => simp
  | succ k ih =>
    rw [Function.iterate_succ, Function.comp, ih, upcoming_Tokenize]
    congr 1; omega

/-- The first upcoming token that is not deeper than the cursor is found within the
pending tokens or is the end-of-input token right after them. -/
theorem first_not_deeper_le (p : Parser) (k : Nat)
    (hbefore : ∀ i, i < k → (p.upcoming i).indent_ > p.current_.indent_)
    (hfirst : (p.upcoming k).indent_ ≤ p.current_.indent_) :
    k ≤ p.pending.length + 1 := by
  by_contra hgt
  have h1 := hbefore (p.pending.length + 1) (by omega)
  rw [upcoming_beyond p _ (le_refl _)] at h1
  rw [upcoming_beyond p k (by omega)] at hfirst
  exact absurd h1 (not_lt.mpr hfirst)

/-- C1. `moveNext()` lands on the next sibling and skips unentered deeper content. Let
`t = p.upcoming k` be the first token of the remaining stream (lookahead first) whose
indent is at most the cursor's indent. The call returns. If `t` has the cursor's indent,
the cursor becomes `t`, the lookahead becomes the token following `t`, the tokens up to
and including `t` are consumed, and the result is true iff `t` is not end-of-input. If
`t` is shallower, the cursor only has its kind set to end-of-input, the lookahead is
`t`, exactly the tokens before `t` are discarded, and the result is false. -/
theorem moveNext_lands_on_next_sibling (p : Parser) (k : Nat)
    (hbefore : ∀ i, i < k → (p.upcoming i).indent_ > p.current_.indent_)
    (hfirst : (p.upcoming k).indent_ ≤ p.current_.indent_) :
    ∃ (r : Bool) (q : Parser), moveNext p = some (r, q) ∧
      ((p.upcoming k).indent_ = p.current_.indent_ →
        q.current_ = p.upcoming k ∧ q.token_ = p.upcoming (k + 1) ∧
        (∀ i, q.upcoming i = p.upcoming (k + 1 + i)) ∧
        (r = true ↔ (p.upcoming k).kind_ ≠ TokenKind.Eof)) ∧
      ((p.upcoming k).indent_ < p.current_.indent_ →
        q.current_ = { p.current_ with kind_ := TokenKind.Eof } ∧
        q.token_ = p.upcoming k ∧
        (∀ i, q.upcoming i = p.upcoming (k + i)) ∧
        r = false) := by
  have hk := first_not_deeper_le p k hbefore hfirst
  have hs := skipDeeper_spec k (p.pending.length + 1) p hk hbefore hfirst
  have htok : (Tokenize^[k] p).token_ = p.upcoming k := by
    rw [← upcoming_zero, upcoming_iterate_Tokenize]; rfl
  have hcur := iterate_Tokenize_current k p
  unfold moveNext
  rw [hs]
  by_cases heq : (p.upcoming k).indent_ = p.current_.indent_
  · have hc : (Tokenize^[k] p).token_.indent_ = (Tokenize^[k] p).current_.indent_ := by
      rw [htok, hcur]; exact heq
    simp only [hc, if_true]
    refine ⟨_, _, rfl, ?_, ?_⟩
    · intro _
      refine ⟨?_, ?_, ?_, ?_⟩
      · rw [Tokenize_current]; exact htok
      · rw [← upcoming_zero, upcoming_Tokenize]
        show (Tokenize^[k] p).upcoming 1 = _
        rw [upcoming_iterate_Tokenize]
      · intro i
        rw [upcoming_Tokenize]
        show (Tokenize^[k] p).upcoming (i + 1) = _
        rw [upcoming_iterate_Tokenize]
        congr 1; omega
      · rw [Tokenize_current]
        simp [htok]
    · intro hlt
      exact absurd heq (ne_of_lt hlt)
  · have hc : ¬ ((Tokenize^[k] p).token_.indent_ = (Tokenize^[k] p).current_.indent_) := by
      rw [htok, hcur]; exact heq
    simp only [hc, if_false]
    refine ⟨_, _, rfl, ?_, ?_⟩
    · intro h; exact absurd h heq
    · intro _
      refine ⟨?_, ?_, ?_, ?_⟩
      · simp [hcur]
      · exact htok
      · intro i
        show (Tokenize^[k] p).upcoming i = _
        exact upcoming_iterate_Tokenize k p i
      · simp

/-- Witness for C1 on the example document: from the fresh parser (cursor `motor`) the
first token not deeper than the cursor is `endstop`, third in the remaining stream. -/
theorem moveNext_lands_on_next_sibling_witness :
    (∀ i, i < 2 → (exampleParser.upcoming i).indent_ > exampleParser.current_.indent_) ∧
    (exampleParser.upcoming 2).indent_ = exampleParser.current_.indent_ ∧
    ∃ (q : Parser), moveNext exampleParser = some (true, q) ∧
      q.current_ = exampleEntry 32 39 0 0 0 ∧ q.token_ = exampleEntry 43 46 48 54 2 := by
  have h1 : ∀ i, i < 2 → (exampleParser.upcoming i).indent_ > exampleParser.current_.indent_ := by
    decide
  have h2 : (exampleParser.upcoming 2).indent_ = exampleParser.current_.indent_ := by decide
  obtain ⟨r, q, hq, heq, _⟩ := moveNext_lands_on_next_sibling exampleParser 2 h1 (le_of_eq h2)
  obtain ⟨hc, ht, _, hr⟩ := heq h2
  have hr1 : r = true := hr.mpr (by decide)
  subst hr1
  exact ⟨h1, h2, q, hq, hc.trans (by decide), ht.trans (by decide)⟩

/-! ## The end-of-input token comes last -/

theorem EofLast_Tokenize_of (p : Parser) (hp : ∀ t ∈ p.pending, t.kind_ ≠ TokenKind.Eof)
    (he : p.eofToken.kind_ = TokenKind.Eof) : EofLast (Tokenize p) := by
  unfold Tokenize
  split
  · rename_i h
    refine ⟨?_, he, ?_⟩
    · simp [h]
    · intro _; exact ⟨rfl, h⟩
  · rename_i t ts h
    rw [h] at hp
    refine ⟨?_, he, ?_⟩
    · intro x hx; exact hp x (List.mem_cons_of_mem _ hx)
    · intro hk; exact absurd hk (hp t (List.mem_cons_self _ _))

theorem EofLast_Tokenize (p : Parser) (h : EofLast p) : EofLast (Tokenize p) :=
  EofLast_Tokenize_of p h.1 h.2.1

theorem EofLast_congr (p q : Parser) (ht : q.token_ = p.token_) (hp : q.pending = p.pending)
    (he : q.eofToken = p.eofToken) (h : EofLast p) : EofLast q := by
  unfold EofLast at *
  rw [ht, hp, he]; exact h

theorem EofLast_skipDeeper (n : Nat) : ∀ (p q : Parser), skipDeeper n p = some q →
    EofLast p → EofLast q := by
  induction n with
  | zero =>
    intro p q h hp
    unfold skipDeeper at h
    split at h
    · exact absurd h (by simp)
    · cases h; exact hp
  | succ n ih =>
    intro p q h hp
    unfold skipDeeper at h
    split at h
    · exact ih _ _ h (EofLast_Tokenize p hp)
    · cases h; exact hp

theorem EofLast_drain (n : Nat) : ∀ (p q : Parser), drain n p = some q →
    EofLast p → EofLast q := by
  induction n with
  | zero =>
    intro p q h hp
    unfold drain at h
    split at h
    · exact absurd h (by simp)
    · cases h; exact hp
  | succ n ih =>
    intro p q h hp
    unfold drain at h
    split at h
    · exact ih _ _ h (EofLast_Tokenize p hp)
    · cases h; exact hp

/-- When the loop of `moveNext` exits, the lookahead is not deeper than the cursor. -/
theorem skipDeeper_exit (n : Nat) : ∀ (p q : Parser), skipDeeper n p = some q →
    q.token_.indent_ ≤ q.current_.indent_ := by
  induction n with
  | zero =>
    intro p q h
    unfold skipDeeper at h
    split at h
    · exact absurd h (by simp)
    · rename_i hc; cases h; exact not_lt.mp hc
  | succ n ih =>
    intro p q h
    unfold skipDeeper at h
    split at h
    · exact ih _ _ h
    · rename_i hc; cases h; exact not_lt.mp hc

theorem EofLast_moveNext (p q : Parser) (r : Bool) (h : moveNext p = some (r, q))
    (hp : EofLast p) : EofLast q := by
  unfold moveNext at h
  cases hs : skipDeeper (p.pending.length + 1) p with
  | none => rw [hs] at h; exact absurd h (by simp)
  | some s =>
    rw [hs] at h
    have hsl := EofLast_skipDeeper _ _ _ hs hp
    simp only [Option.some.injEq, Prod.mk.injEq] at h
    obtain ⟨_, hq⟩ := h
    subst hq
    split
    · apply EofLast_Tokenize
      exact EofLast_congr s _ rfl rfl rfl hsl
    · exact EofLast_congr s _ rfl rfl rfl hsl

theorem EofLast_enter (p : Parser) (hp : EofLast p) : EofLast (enter p) := by
  simp only [enter]
  apply EofLast_congr _ _ rfl rfl rfl
  split
  · apply EofLast_Tokenize
    exact EofLast_congr p _ rfl rfl rfl hp
  · exact EofLast_congr p _ rfl rfl rfl hp

theorem EofLast_leave (p q : Parser) (h : leave p = LeaveResult.returned q)
    (hp : EofLast p) : EofLast q := by
  unfold leave at h
  cases hs : drain (p.pending.length + 1) p with
  | none => rw [hs] at h; exact absurd h (by simp)
  | some s =>
    rw [hs] at h
    have hsl := EofLast_drain _ _ _ hs hp
    simp only at h
    split at h
    · exact absurd h (by simp)
    · split at h
      · cases h
        apply EofLast_Tokenize
        exact EofLast_congr s _ rfl rfl rfl hsl
      · cases h
        exact EofLast_congr s _ rfl rfl rfl hsl

theorem EofLast_step (op : Op) (p q : Parser) (h : step op p = some q) (hp : EofLast p) :
    EofLast q := by
  cases op with
  | moveNext =>
    cases hm : moveNext p with
    | none => simp [step, hm] at h
    | some rq =>
      obtain ⟨r, q1⟩ := rq
      simp only [step, hm, Option.map_some', Option.some.injEq] at h
      subst h
      exact EofLast_moveNext p q1 r hm hp
  | enter =>
    simp only [step, Option.some.injEq] at h
    subst h; exact EofLast_enter p hp
  | leave =>
    simp only [step] at h
    split at h
    · rename_i q1 hl
      cases h
      exact EofLast_leave p _ hl hp
    · exact absurd h (by simp)
    · exact absurd h (by simp)

theorem EofLast_run (ops : List Op) : ∀ (p q : Parser), run ops p = some q →
    EofLast p → EofLast q := by
  induction ops with
  | nil => intro p q h hp; simp only [run, Option.some.injEq] at h; subst h; exact hp
  | cons op ops ih =>
    intro p q h hp
    simp only [run, Option.bind_eq_some] at h
    obtain ⟨p1, h1, h2⟩ := h
    exact ih p1 q h2 (EofLast_step op p p1 h1 hp)

theorem EofLast_create (start : Nat) (buffer : List Nat) (tokens : List TokenData)
    (eofToken : TokenData) (hk : ∀ t ∈ tokens, t.kind_ ≠ TokenKind.Eof)
    (he : eofToken.kind_ = TokenKind.Eof) :
    EofLast (create start buffer tokens eofToken) := by
  have h0 : EofLast (Tokenize (initial start buffer tokens eofToken)) :=
    EofLast_Tokenize_of _ hk he
  unfold create
  simp only
  split
  · apply EofLast_Tokenize
    exact EofLast_congr _ _ rfl rfl rfl h0
  · exact EofLast_congr _ _ rfl rfl rfl h0

/-! ## Exhaustion is stable -/

/-- A state in which `moveNext()` has just returned false is a fixed point of
`moveNext()`: the next call returns false again and changes nothing. -/
theorem moveNext_false_fixed (p p1 : Parser) (hp : EofLast p)
    (h : moveNext p = some (false, p1)) : moveNext p1 = some (false, p1) := by
  unfold moveNext at h
  cases hs : skipDeeper (p.pending.length + 1) p with
  | none => rw [hs] at h; exact absurd h (by simp)
  | some s =>
    rw [hs] at h
    have hsl := EofLast_skipDeeper _ _ _ hs hp
    have hex := skipDeeper_exit _ _ _ hs
    simp only [Option.some.injEq, Prod.mk.injEq] at h
    obtain ⟨hr, hq⟩ := h
    obtain ⟨st, bf, tok, pend, eof, cur, stk, ind⟩ := s
    simp only at hex hr hq
    by_cases heq : tok.indent_ = cur.indent_
    · simp only [heq, if_true] at hr hq
      rw [Tokenize_current] at hr
      simp only [ne_eq, decide_not, Bool.not_eq_false', decide_eq_true_eq] at hr
      obtain ⟨htok, hpend⟩ := hsl.2.2 hr
      simp only at htok hpend
      subst htok hpend hq
      simp [moveNext, Tokenize, skipDeeper, hr]
    · simp only [heq, if_false] at hr hq
      subst hq
      have hlt : ¬ (tok.indent_ > cur.indent_) := not_lt.mpr hex
      simp [moveNext, skipDeeper, hlt, heq]

theorem moveNextTimes_fixed (p1 : Parser) (h : moveNext p1 = some (false, p1)) (n : Nat) :
    moveNextTimes n p1 = some (List.replicate n false, p1) := by
  induction n with
  | zero => rfl
  | succ n ih => simp [moveNextTimes, h, ih, List.replicate_succ]

/-- C2. Idempotent exhaustion of `moveNext()`. Over a finite token stream (entries, then
the end-of-input token, produced again on every further advance), in every state reached
from construction by navigation calls, once `moveNext()` has returned false, each of the
next `n` calls of `moveNext()` returns, returns false, and leaves the state as it is. -/
theorem moveNext_exhaustion_idempotent (start : Nat) (buffer : List Nat)
    (tokens : List TokenData) (eofToken : TokenData)
    (hk : ∀ t ∈ tokens, t.kind_ ≠ TokenKind.Eof) (he : eofToken.kind_ = TokenKind.Eof)
    (ops : List Op) (p p1 : Parser)
    (hreach : run ops (create start buffer tokens eofToken) = some p)
    (hfalse : moveNext p = some (false, p1)) (n : Nat) :
    moveNextTimes n p1 = some (List.replicate n false, p1) := by
  have hp : EofLast p :=
    EofLast_run ops _ p hreach (EofLast_create start buffer tokens eofToken hk he)
  exact moveNextTimes_fixed p1 (moveNext_false_fixed p p1 hp hfalse) n

/-- Witness for C2 on the example document: after `enter()` and one `moveNext()` the
cursor is on `speed`, the last entry of the section; the next call returns false, and
so do the three calls after it. -/
theorem moveNext_exhaustion_idempotent_witness :
    ∃ p p1 : Parser,
      run [Op.enter, Op.moveNext] exampleParser = some p ∧
      moveNext p = some (false, p1) ∧
      moveNextTimes 3 p1 = some ([false, false, false], p1) := by
  have hk : ∀ t ∈ exampleTokens, t.kind_ ≠ TokenKind.Eof := by decide
  have he : exampleEof.kind_ = TokenKind.Eof := by decide
  cases hrun : run [Op.enter, Op.moveNext] exampleParser with
  | none => exact absurd hrun (by decide)
  | some p =>
    cases hm : moveNext p with
    | none =>
      have : (run [Op.enter, Op.moveNext] exampleParser).bind moveNext ≠ none := by decide
      rw [hrun] at this
      exact absurd hm this
    | some rq =>
      obtain ⟨r, p1⟩ := rq
      have hr : ((run [Op.enter, Op.moveNext] exampleParser).bind moveNext).map Prod.fst
          = some false := by decide
      rw [hrun] at hr
      simp only [Option.some_bind, hm, Option.map_some', Option.some.injEq] at hr
      subst hr
      exact ⟨p, p1, rfl, hm,
        moveNext_exhaustion_idempotent 1000 exampleText exampleTokens exampleEof hk he
          [Op.enter, Op.moveNext] p p1 hrun hm 3⟩

/-! ## Entering and leaving a section -/

theorem iterate_Tokenize_eofToken (k : Nat) (p : Parser) :
    (Tokenize^[k] p).eofToken = p.eofToken := by
  induction k generalizing p with
  | zero => rfl
  | succ k ih => rw [Function.iterate_succ, Function.comp, ih, Tokenize_eofToken]

/-- The drain loop of `leave` exits when the end-of-input token has kind end-of-input:
it stops at the latest on that token. -/
theorem drain_returns (n : Nat) : ∀ (p : Parser), p.eofToken.kind_ = TokenKind.Eof →
    (p.pending.length + 1 ≤ n ∨ p.token_.kind_ = TokenKind.Eof) →
    ∃ k, drain n p = some (Tokenize^[k] p) := by
  induction n with
  | zero =>
    intro p _ h
    have hk : p.token_.kind_ = TokenKind.Eof := by
      rcases h with h | h
      · omega
      · exact h
    exact ⟨0, by simp [drain, hk]⟩
  | succ n ih =>
    intro p he h
    by_cases hc : p.token_.indent_ ≥ p.current_.indent_ ∧ p.token_.kind_ ≠ TokenKind.Eof
    · have hlen : p.pending.length + 1 ≤ n + 1 := by
        rcases h with h | h
        · exact h
        · exact absurd h hc.2
      have hnext : (Tokenize p).pending.length + 1 ≤ n ∨
          (Tokenize p).token_.kind_ = TokenKind.Eof := by
        cases hp : p.pending with
        | nil => right; simp [Tokenize, hp, he]
        | cons t ts =>
          left
          rw [hp] at hlen
          simp only [Tokenize, hp, List.length_cons] at hlen ⊢
          omega
      obtain ⟨k, hk⟩ := ih (Tokenize p) (by rw [Tokenize_eofToken]; exact he) hnext
      refine ⟨k + 1, ?_⟩
      rw [drain, if_pos hc]
      exact hk
    · exact ⟨0, by rw [drain, if_neg hc]; rfl⟩

theorem enter_indentStack (p : Parser) :
    (enter p).indentStack_ = p.current_.indent_ :: p.indentStack_ := by
  simp only [enter]
  split
  · rw [Tokenize_indentStack]
  · rfl

theorem enter_eofToken (p : Parser) : (enter p).eofToken = p.eofToken := by
  simp only [enter]
  split
  · rw [Tokenize_eofToken]
  · rfl

/-- After `enter()` the tokens still to come are those of before, less the lookahead
when the section was entered. -/
theorem upcoming_enter (p : Parser) :
    ∃ j, ∀ i, (enter p).upcoming i = p.upcoming (j + i) := by
  by_cases hc : p.token_.indent_ > p.current_.indent_
  · refine ⟨1, fun i => ?_⟩
    simp only [enter, hc, if_true]
    show (Tokenize _).upcoming i = _
    rw [upcoming_Tokenize]
    show p.upcoming (i + 1) = _
    congr 1; omega
  · refine ⟨0, fun i => ?_⟩
    simp only [enter, hc, if_false]
    show p.upcoming i = _
    congr 1; omega

/-- Counterexample to C3 as stated: on the example document the cursor of the fresh
parser is `motor`; after `enter()` and `leave()` it is `endstop`, another key range. -/
theorem enter_leave_cursor_counterexample :
    ∃ q, leave (enter exampleParser) = LeaveResult.returned q ∧
      exampleParser.current_ = exampleEntry 0 5 0 0 0 ∧
      q.current_ = exampleEntry 32 39 0 0 0 ∧
      q.current_ ≠ exampleParser.current_ := by
  refine ⟨_, rfl, ?_, ?_, ?_⟩ <;> decide

/-! ## The example walk -/

/-- Counterexample to C4 as stated: on the freshly constructed parser of the example
document the first `moveNext()` returns true with the cursor on key `endstop`, not on
key `motor` (the constructor has already put the cursor on `motor`). -/
theorem example_walk_first_moveNext_counterexample :
    ∃ q, moveNext exampleParser = some (true, q) ∧
      q.is (bytesOf "endstop") = true ∧ q.is (bytesOf "motor") = false := by
  refine ⟨_, rfl, ?_, ?_⟩ <;> decide

/-- C4, as amended. The walk of the example document: the freshly constructed parser
has its cursor on key `motor` already; after `enter()` the cursor is on key `dir` and
`boolValue()` is true; the next `moveNext()` returns true with the cursor on key `speed`
and `intValue()` is 120; the next `moveNext()` returns false; after `leave()` the cursor
is on key `endstop`. -/
theorem example_walk :
    exampleParser.is (bytesOf "motor") = true ∧
    (enter exampleParser).is (bytesOf "dir") = true ∧
    (enter exampleParser).boolValue = true ∧
    ∃ p2, moveNext (enter exampleParser) = some (true, p2) ∧
      p2.is (bytesOf "speed") = true ∧
      p2.intValue isIntegerText = Except.ok 120 ∧
      ∃ p3, moveNext p2 = some (false, p3) ∧
        ∃ p4, leave p3 = LeaveResult.returned p4 ∧
          p4.is (bytesOf "endstop") = true := by
  refine ⟨by decide, by decide, by decide, _, rfl, by decide, by rfl, _, rfl, _, rfl, ?_⟩
  decide

/-! ## `leave()` without a matching `enter()` -/

theorem drain_eq_iterate (n : Nat) : ∀ (p q : Parser), drain n p = some q →
    ∃ k, q = Tokenize^[k] p := by
  induction n with
  | zero =>
    intro p q h
    unfold drain at h
    split at h
    · exact absurd h (by simp)
    · cases h; exact ⟨0, rfl⟩
  | succ n ih =>
    intro p q h
    unfold drain at h
    split at h
    · obtain ⟨k, hk⟩ := ih _ _ h
      exact ⟨k + 1, hk⟩
    · cases h; exact ⟨0, rfl⟩

/-- Counterexample to C5 as stated: the freshly constructed parser of the example
document has an empty indent stack; `leave()` first drains the whole document (the
lookahead `dir` becomes the end-of-input token) and only then comes to
`indentStack_.top()`, unchecked, on the empty stack: the lookahead has changed and no
contract violation has been signalled. -/
theorem leave_unmatched_counterexample :
    exampleParser.indentStack_ = [] ∧
    ∃ q, leave exampleParser = LeaveResult.undefined q ∧
      exampleParser.token_ = exampleEntry 9 12 14 18 2 ∧
      q.token_ = exampleEof ∧ q.pending = [] ∧
      q.token_ ≠ exampleParser.token_ := by
  refine ⟨by decide, _, rfl, ?_, ?_, ?_, ?_⟩ <;> decide

/-! ## Key matching -/

theorem strlen_of_no_nul (s : List Nat) (h : ∀ b ∈ s, b ≠ 0) : strlen s = s.length := by
  unfold strlen
  congr 1
  rw [List.takeWhile_eq_self_iff]
  intro b hb
  simpa using h b hb

/-- On a first string without NUL among its first `n` bytes, `strncmp` returns zero
exactly when the first `n` bytes of the two strings agree. -/
theorem strncmp_eq_zero_iff (n : Nat) : ∀ (s1 s2 : Nat → Nat),
    (∀ i, i < n → s1 i ≠ 0) →
    (strncmp s1 s2 n = 0 ↔ ∀ i, i < n → s1 i = s2 i) := by
  induction n with
  | zero => intro s1 s2 _; simp [strncmp]
  | succ n ih =>
    intro s1 s2 hnz
    unfold strncmp
    by_cases h0 : s1 0 = s2 0
    · have hz : s1 0 ≠ 0 := hnz 0 (Nat.succ_pos n)
      simp only [ne_eq, h0, not_true_eq_false, if_false]
      rw [if_neg (by rw [← h0]; exact hz)]
      rw [ih (fun i => s1 (i + 1)) (fun i => s2 (i + 1))
        (fun i hi => hnz (i + 1) (by omega))]
      constructor
      · intro h i hi
        cases i with
        | zero => exact h0
        | succ i => exact h i (by omega)
      · intro h i hi
        exact h (i + 1) (by omega)
    · simp only [ne_eq, h0, not_false_eq_true, if_true]
      constructor
      · intro h
        have : (s1 0 : Int) = (s2 0 : Int) := by omega
        exact absurd (Int.ofNat_inj.mp this) h0
      · intro h
        exact absurd (h 0 (Nat.succ_pos n)) h0

/-- C6. Key matching. For a name without NUL bytes (the empty name included), `is(name)`
is true exactly when the cursor has a key (`keyStart_` is not null), the key is as long
as the name, and the key holds the same bytes as the name, in order. The method only
reads the state. -/
theorem is_iff_key_equals (p : Parser) (name : List Nat) (hnul : ∀ b ∈ name, b ≠ 0) :
    p.is name = true ↔
      (p.current_.keyStart_ ≠ nullptr ∧
        (p.current_.keyEnd_ : Int) - (p.current_.keyStart_ : Int) = (name.length : Int) ∧
        ∀ i, i < name.length → p.byteAt (p.current_.keyStart_ + i) = name.getD i 0) := by
  have hlen := strlen_of_no_nul name hnul
  have hnz : ∀ i, i < name.length → name.getD i 0 ≠ 0 := by
    intro i hi
    rw [List.getD_eq_getElem _ _ hi]
    exact hnul _ (List.getElem_mem hi)
  unfold Parser.is
  by_cases hk : p.current_.keyStart_ = nullptr
  · simp [hk]
  · rw [if_neg hk]
    simp only [hlen]
    by_cases hl : (name.length : Int) = (p.current_.keyEnd_ : Int) - (p.current_.keyStart_ : Int)
    · rw [if_neg (by simpa using hl)]
      rw [decide_eq_true_iff, strncmp_eq_zero_iff _ _ _ hnz]
      constructor
      · intro h
        exact ⟨hk, hl.symm, fun i hi => (h i hi).symm⟩
      · intro h i hi
        exact (h.2.2 i hi).symm
    · rw [if_pos (by simpa using hl)]
      constructor
      · intro h; exact absurd h (by simp)
      · intro h; exact absurd h.2.1.symm hl

/-- Witness for C6: the cursor of the fresh example parser is on the key `motor`. -/
theorem is_iff_key_equals_witness :
    (∀ b ∈ bytesOf "motor", b ≠ 0) ∧ exampleParser.is (bytesOf "motor") = true ∧
    exampleParser.is (bytesOf "Motor") = false ∧ exampleParser.is (bytesOf "") = false := by
  have h := is_iff_key_equals exampleParser (bytesOf "motor") (by decide)
  exact ⟨by decide, h.mpr ⟨by decide, by decide, by decide⟩, by decide, by decide⟩

/-- Counterexample to C7 as stated: on the example document, after `enter()` and one
`moveNext()` the cursor is on `speed`; the next `moveNext()` returns false and marks
the cursor end-of-input, yet the cursor keeps its key and `is("speed")` is still
true. -/
theorem is_after_exhaustion_counterexample :
    ∃ p q, run [Op.enter, Op.moveNext] exampleParser = some p ∧
      moveNext p = some (false, q) ∧
      q.current_.kind_ = TokenKind.Eof ∧
      q.is (bytesOf "speed") = true := by
  refine ⟨_, _, rfl, rfl, ?_, ?_⟩ <;> decide

/-- C7, as amended. No key matches a cursor without a key: in every state whose cursor
has a null `keyStart_`, `is(name)` is false for every name, the empty name included.
This is the case right after `enter()` into an empty section (lookahead not deeper than
the cursor). A cursor that `moveNext()` marked end-of-input keeps its key. -/
theorem is_false_without_key (p : Parser) (name : List Nat) :
    (p.current_.keyStart_ = nullptr → p.is name = false) ∧
    (p.token_.indent_ ≤ p.current_.indent_ →
      (enter p).current_.keyStart_ = nullptr ∧ (enter p).is name = false) := by
  have h1 : ∀ s : Parser, s.current_.keyStart_ = nullptr → s.is name = false := by
    intro s hs
    simp [Parser.is, hs]
  refine ⟨h1 p, fun hle => ?_⟩
  have hk : (enter p).current_.keyStart_ = nullptr := by
    simp only [enter, if_neg (not_lt.mpr hle)]
    rfl
  exact ⟨hk, h1 _ hk⟩

/-- Witness for C7 as amended: on the example document, the entry `dir` has no
sub-section; after `enter()` on it no name matches, not even the empty one. -/
theorem is_false_without_key_witness :
    (enter exampleParser).token_.indent_ ≤ (enter exampleParser).current_.indent_ ∧
    (enter (enter exampleParser)).current_.keyStart_ = nullptr ∧
    (enter (enter exampleParser)).is (bytesOf "") = false :=
  ⟨by decide,
    ((is_false_without_key (enter exampleParser) (bytesOf "")).2 (by decide)).1,
    ((is_false_without_key (enter exampleParser) (bytesOf "")).2 (by decide)).2⟩

/-! ## The indent stack -/

theorem skipDeeper_eq_iterate (n : Nat) : ∀ (p q : Parser), skipDeeper n p = some q →
    ∃ k, q = Tokenize^[k] p := by
  induction n with
  | zero =>
    intro p q h
    unfold skipDeeper at h
    split at h
    · exact absurd h (by simp)
    · cases h; exact ⟨0, rfl⟩
  | succ n ih =>
    intro p q h
    unfold skipDeeper at h
    split at h
    · obtain ⟨k, hk⟩ := ih _ _ h
      exact ⟨k + 1, hk⟩
    · cases h; exact ⟨0, rfl⟩

/-- The method `moveNext()` leaves the indent stack as it is. -/
theorem moveNext_indentStack (p q : Parser) (r : Bool) (h : moveNext p = some (r, q)) :
    q.indentStack_ = p.indentStack_ := by
  unfold moveNext at h
  cases hs : skipDeeper (p.pending.length + 1) p with
  | none => rw [hs] at h; exact absurd h (by simp)
  | some s =>
    rw [hs] at h
    obtain ⟨k, hk⟩ := skipDeeper_eq_iterate _ _ _ hs
    have hstk : s.indentStack_ = p.indentStack_ := by
      rw [hk, iterate_Tokenize_indentStack]
    simp only [Option.some.injEq, Prod.mk.injEq] at h
    obtain ⟨_, hq⟩ := h
    subst hq
    split
    · rw [Tokenize_indentStack]; exact hstk
    · exact hstk

/-- The method `leave()`, when it returns, has popped exactly the top of the stack. -/
theorem leave_indentStack (p q : Parser) (h : leave p = LeaveResult.returned q) :
    ∃ last, p.indentStack_ = last :: q.indentStack_ := by
  unfold leave at h
  cases hs : drain (p.pending.length + 1) p with
  | none => rw [hs] at h; exact absurd h (by simp)
  | some s =>
    rw [hs] at h
    obtain ⟨k, hk⟩ := drain_eq_iterate _ _ _ hs
    have hstk : s.indentStack_ = p.indentStack_ := by
      rw [hk, iterate_Tokenize_indentStack]
    simp only at h
    split at h
    · exact absurd h (by simp)
    · rename_i last below hcons
      rw [hstk] at hcons
      refine ⟨last, ?_⟩
      split at h
      · cases h
        rw [Tokenize_indentStack]
        exact hcons
      · cases h
        exact hcons

/-- Whenever a sequence of navigation calls returns, the stack has grown by the number
of `enter()` calls and shrunk by the number of `leave()` calls. -/
theorem run_indentStack_length (ops : List Op) : ∀ (p q : Parser), run ops p = some q →
    q.indentStack_.length + ops.count Op.leave = p.indentStack_.length + ops.count Op.enter := by
  induction ops with
  | nil => intro p q h; simp only [run, Option.some.injEq] at h; subst h; rfl
  | cons op ops ih =>
    intro p q h
    simp only [run, Option.bind_eq_some] at h
    obtain ⟨p1, h1, h2⟩ := h
    have hrec := ih p1 q h2
    cases op with
    | moveNext =>
      cases hm : moveNext p with
      | none => simp [step, hm] at h1
      | some rq =>
        obtain ⟨r, q1⟩ := rq
        simp only [step, hm, Option.map_some', Option.some.injEq] at h1
        subst h1
        have := moveNext_indentStack p q1 r hm
        simp only [List.count_cons, this] at hrec ⊢
        simpa using hrec
    | enter =>
      simp only [step, Option.some.injEq] at h1
      subst h1
      rw [enter_indentStack] at hrec
      simp only [List.count_cons, List.length_cons] at hrec ⊢
      simp only [beq_self_eq_true, if_true]
      have : (Op.enter == Op.leave) = false := by decide
      simp only [this] at hrec ⊢
      simp only [Bool.false_eq_true, if_false] at hrec ⊢
      omega
    | leave =>
      simp only [step] at h1
      split at h1
      · rename_i q1 hl
        cases h1
        obtain ⟨last, hlast⟩ := leave_indentStack p _ hl
        rw [hlast]
        simp only [List.count_cons, List.length_cons]
        simp only [beq_self_eq_true, if_true]
        have : (Op.leave == Op.enter) = false := by decide
        simp only [this, Bool.false_eq_true, if_false]
        omega
      · exact absurd h1 (by simp)
      · exact absurd h1 (by simp)

/-! ## Termination over a stream whose end-of-input token is shallowest -/

theorem EofShallowest_Tokenize (p : Parser) (h : EofShallowest p) :
    EofShallowest (Tokenize p) := by
  obtain ⟨he, hup, hcur, hstk, hmax⟩ := h
  refine ⟨?_, ?_, ?_, ?_, ?_⟩
  · rw [Tokenize_eofToken]; exact he
  · intro i; rw [Tokenize_eofToken, upcoming_Tokenize]; exact hup (i + 1)
  · rw [Tokenize_eofToken, Tokenize_current]; exact hcur
  · rw [Tokenize_eofToken, Tokenize_indentStack]; exact hstk
  · rw [Tokenize_eofToken]; exact hmax

theorem EofShallowest_iterate (k : Nat) (p : Parser) (h : EofShallowest p) :
    EofShallowest (Tokenize^[k] p) := by
  induction k generalizing p with
  | zero => exact h
  | succ k ih => exact ih (Tokenize p) (EofShallowest_Tokenize p h)

/-- The invariant only depends on the scanner part, the cursor's indent and the
stack. -/
theorem EofShallowest_frame (p q : Parser) (h : EofShallowest p)
    (he : q.eofToken = p.eofToken) (hup : ∀ i, q.upcoming i = p.upcoming i)
    (hcur : p.eofToken.indent_ ≤ q.current_.indent_)
    (hstk : ∀ x ∈ q.indentStack_, p.eofToken.indent_ ≤ x) : EofShallowest q := by
  obtain ⟨hk, hu, _, _, hmax⟩ := h
  refine ⟨?_, ?_, ?_, ?_, ?_⟩
  · rw [he]; exact hk
  · intro i; rw [he, hup]; exact hu i
  · rw [he]; exact hcur
  · rw [he]; exact hstk
  · rw [he]; exact hmax

theorem EofShallowest_token (p : Parser) (h : EofShallowest p) :
    p.eofToken.indent_ ≤ p.token_.indent_ := by
  have := h.2.1 0
  rwa [upcoming_zero] at this

theorem EofShallowest_moveNext (p q : Parser) (r : Bool) (h : moveNext p = some (r, q))
    (hp : EofShallowest p) : EofShallowest q := by
  unfold moveNext at h
  cases hs : skipDeeper (p.pending.length + 1) p with
  | none => rw [hs] at h; exact absurd h (by simp)
  | some s =>
    rw [hs] at h
    obtain ⟨k, hk⟩ := skipDeeper_eq_iterate _ _ _ hs
    have hJ : EofShallowest s := by rw [hk]; exact EofShallowest_iterate k p hp
    simp only [Option.some.injEq, Prod.mk.injEq] at h
    obtain ⟨_, hq⟩ := h
    subst hq
    split
    · apply EofShallowest_Tokenize
      exact EofShallowest_frame s _ hJ rfl (fun _ => rfl) (EofShallowest_token s hJ) hJ.2.2.2.1
    · exact EofShallowest_frame s _ hJ rfl (fun _ => rfl) hJ.2.2.1 hJ.2.2.2.1

theorem EofShallowest_enter (p : Parser) (hp : EofShallowest p) :
    EofShallowest (enter p) := by
  have hstk : ∀ x ∈ p.current_.indent_ :: p.indentStack_, p.eofToken.indent_ ≤ x := by
    intro x hx
    rcases List.mem_cons.mp hx with hx | hx
    · rw [hx]; exact hp.2.2.1
    · exact hp.2.2.2.1 x hx
  simp only [enter]
  split
  · have h1 : EofShallowest (Tokenize { p with
        indentStack_ := p.current_.indent_ :: p.indentStack_, current_ := p.token_ }) := by
      apply EofShallowest_Tokenize
      exact EofShallowest_frame p _ hp rfl (fun _ => rfl) (EofShallowest_token p hp) hstk
    exact EofShallowest_frame _ _ h1 rfl (fun _ => rfl) h1.2.2.1 h1.2.2.2.1
  · exact EofShallowest_frame p _ hp rfl (fun _ => rfl) hp.2.2.2.2 hstk

theorem EofShallowest_leave (p q : Parser) (h : leave p = LeaveResult.returned q)
    (hp : EofShallowest p) : EofShallowest q := by
  unfold leave at h
  cases hs : drain (p.pending.length + 1) p with
  | none => rw [hs] at h; exact absurd h (by simp)
  | some s =>
    rw [hs] at h
    obtain ⟨k, hk⟩ := drain_eq_iterate _ _ _ hs
    have hJ : EofShallowest s := by rw [hk]; exact EofShallowest_iterate k p hp
    simp only at h
    split at h
    · exact absurd h (by simp)
    · rename_i last below hcons
      have hlast : s.eofToken.indent_ ≤ last :=
        hJ.2.2.2.1 last (by rw [hcons]; exact List.mem_cons_self _ _)
      have hbelow : ∀ x ∈ below, s.eofToken.indent_ ≤ x :=
        fun x hx => hJ.2.2.2.1 x (by rw [hcons]; exact List.mem_cons_of_mem _ hx)
      split at h
      · cases h
        apply EofShallowest_Tokenize
        exact EofShallowest_frame s _ hJ rfl (fun _ => rfl) (EofShallowest_token s hJ) hbelow
      · cases h
        exact EofShallowest_frame s _ hJ rfl (fun _ => rfl) hlast hbelow

theorem EofShallowest_create (start : Nat) (buffer : List Nat) (tokens : List TokenData)
    (eofToken : TokenData) (he : eofToken.kind_ = TokenKind.Eof)
    (hk : ∀ t ∈ tokens, eofToken.indent_ ≤ t.indent_) (hmax : eofToken.indent_ ≤ INT_MAX) :
    EofShallowest (create start buffer tokens eofToken) := by
  have hup : ∀ i, eofToken.indent_ ≤
      ((Tokenize (initial start buffer tokens eofToken)).upcoming i).indent_ := by
    intro i
    rw [upcoming_Tokenize]
    show eofToken.indent_ ≤ ((TokenData.new :: tokens).getD (i + 1) eofToken).indent_
    rw [List.getD_cons_succ]
    by_cases hi : i < tokens.length
    · rw [List.getD_eq_getElem _ _ hi]
      exact hk _ (List.getElem_mem hi)
    · rw [List.getD_eq_default _ _ (not_lt.mp hi)]
  have h0 : EofShallowest { Tokenize (initial start buffer tokens eofToken) with
      current_ := (Tokenize (initial start buffer tokens eofToken)).token_ } := by
    refine ⟨?_, ?_, ?_, ?_, ?_⟩
    · show (Tokenize (initial start buffer tokens eofToken)).eofToken.kind_ = _
      rw [Tokenize_eofToken]; exact he
    · intro i
      show (Tokenize (initial start buffer tokens eofToken)).eofToken.indent_ ≤
        ((Tokenize (initial start buffer tokens eofToken)).upcoming i).indent_
      rw [Tokenize_eofToken]; exact hup i
    · show (Tokenize (initial start buffer tokens eofToken)).eofToken.indent_ ≤
        (Tokenize (initial start buffer tokens eofToken)).token_.indent_
      rw [Tokenize_eofToken, ← upcoming_zero]; exact hup 0
    · intro x hx
      have : (Tokenize (initial start buffer tokens eofToken)).indentStack_ = [] := by
        rw [Tokenize_indentStack]; rfl
      change x ∈ (Tokenize (initial start buffer tokens eofToken)).indentStack_ at hx
      rw [this] at hx
      exact absurd hx (List.not_mem_nil x)
    · show (Tokenize (initial start buffer tokens eofToken)).eofToken.indent_ ≤ _
      rw [Tokenize_eofToken]; exact hmax
  unfold create
  simp only
  split
  · exact EofShallowest_Tokenize _ h0
  · exact h0

/-- The loop of `moveNext` exits as soon as some token still to come is not deeper than
the cursor. -/
theorem moveNext_returns (p : Parser)
    (h : ∃ i, (p.upcoming i).indent_ ≤ p.current_.indent_) :
    ∃ r q, moveNext p = some (r, q) := by
  classical
  have hmin : ∀ i, i < Nat.find h → (p.upcoming i).indent_ > p.current_.indent_ :=
    fun i hi => not_le.mp (Nat.find_min h hi)
  have hk := first_not_deeper_le p (Nat.find h) hmin (Nat.find_spec h)
  have hs := skipDeeper_spec (Nat.find h) (p.pending.length + 1) p hk hmin (Nat.find_spec h)
  unfold moveNext
  rw [hs]
  exact ⟨_, _, rfl⟩

theorem moveNext_returns_of_EofShallowest (p : Parser) (hp : EofShallowest p) :
    ∃ r q, moveNext p = some (r, q) := by
  apply moveNext_returns
  refine ⟨p.pending.length + 1, ?_⟩
  rw [upcoming_beyond p _ (le_refl _)]
  exact hp.2.2.1

theorem leave_returns (p : Parser) (he : p.eofToken.kind_ = TokenKind.Eof)
    (hne : p.indentStack_ ≠ []) : ∃ q, leave p = LeaveResult.returned q := by
  obtain ⟨k, hk⟩ := drain_returns (p.pending.length + 1) p he (Or.inl (le_refl _))
  unfold leave
  rw [hk]
  simp only
  split
  · rename_i hnil
    rw [iterate_Tokenize_indentStack] at hnil
    exact absurd hnil hne
  · split
    · exact ⟨_, rfl⟩
    · exact ⟨_, rfl⟩

theorem create_indentStack (start : Nat) (buffer : List Nat) (tokens : List TokenData)
    (eofToken : TokenData) : (create start buffer tokens eofToken).indentStack_ = [] := by
  unfold create
  simp only
  split
  · rw [Tokenize_indentStack]
    show (Tokenize (initial start buffer tokens eofToken)).indentStack_ = []
    rw [Tokenize_indentStack]; rfl
  · show (Tokenize (initial start buffer tokens eofToken)).indentStack_ = []
    rw [Tokenize_indentStack]; rfl

/-- Over a stream whose end-of-input token is shallowest, a sequence of navigation
calls that never leaves more often than it has entered returns. -/
theorem run_returns (ops : List Op) : ∀ (p : Parser), EofShallowest p →
    (∀ n, (ops.take n).count Op.leave ≤
      p.indentStack_.length + (ops.take n).count Op.enter) →
    ∃ q, run ops p = some q := by
  induction ops with
  | nil => intro p _ _; exact ⟨p, rfl⟩
  | cons op ops ih =>
    intro p hp hbal
    cases op with
    | moveNext =>
      obtain ⟨r, q1, hm⟩ := moveNext_returns_of_EofShallowest p hp
      have hstk := moveNext_indentStack p q1 r hm
      obtain ⟨q, hq⟩ := ih q1 (EofShallowest_moveNext p q1 r hm hp) (by
        intro n
        have := hbal (n + 1)
        rw [hstk]
        simpa [List.take_succ_cons, List.count_cons] using this)
      exact ⟨q, by simp [run, step, hm, hq]⟩
    | enter =>
      obtain ⟨q, hq⟩ := ih (enter p) (EofShallowest_enter p hp) (by
        intro n
        have := hbal (n + 1)
        rw [enter_indentStack]
        simp only [List.take_succ_cons, List.count_cons, List.length_cons] at this ⊢
        have h1 : (Op.enter == Op.leave) = false := by decide
        simp only [h1, beq_self_eq_true, if_true, Bool.false_eq_true, if_false] at this
        omega)
      exact ⟨q, by simp [run, step, hq]⟩
    | leave =>
      have h1 := hbal 1
      simp only [List.take_succ_cons, List.take_zero, List.count_cons, List.count_nil] at h1
      have h2 : (Op.leave == Op.enter) = false := by decide
      simp only [h2, beq_self_eq_true, if_true, Bool.false_eq_true, if_false] at h1
      have hne : p.indentStack_ ≠ [] := by
        intro hnil
        rw [hnil] at h1
        simp at h1
      obtain ⟨q1, hl⟩ := leave_returns p hp.1 hne
      obtain ⟨last, hlast⟩ := leave_indentStack p q1 hl
      obtain ⟨q, hq⟩ := ih q1 (EofShallowest_leave p q1 hl hp) (by
        intro n
        have := hbal (n + 1)
        rw [hlast] at this
        simp only [List.take_succ_cons, List.count_cons, List.length_cons] at this
        simp only [h2, beq_self_eq_true, if_true, Bool.false_eq_true, if_false] at this
        omega)
      exact ⟨q, by simp [run, step, hl, hq]⟩

/-- C8. Indent-stack balance. For a freshly constructed parser and a sequence of
`moveNext()`/`enter()`/`leave()` calls in which no prefix has more `leave()` than
`enter()` calls: whenever the sequence returns, the depth of the indent stack is the
number of `enter()` calls minus the number of `leave()` calls; and the sequence does
return over every stream whose end-of-input token has kind end-of-input and an indent
not above that of any token (nor above `INT_MAX`). In every state `enter()` pushes
exactly one entry, a returning `leave()` pops exactly one, and `moveNext()` leaves the
stack unchanged. -/
theorem indentStack_balance (start : Nat) (buffer : List Nat) (tokens : List TokenData)
    (eofToken : TokenData) (ops : List Op)
    (hbal : ∀ n, (ops.take n).count Op.leave ≤ (ops.take n).count Op.enter) :
    (∀ q, run ops (create start buffer tokens eofToken) = some q →
      (q.indentStack_.length : Int) = (ops.count Op.enter : Int) - (ops.count Op.leave : Int)) ∧
    (eofToken.kind_ = TokenKind.Eof → (∀ t ∈ tokens, eofToken.indent_ ≤ t.indent_) →
      eofToken.indent_ ≤ INT_MAX →
      ∃ q, run ops (create start buffer tokens eofToken) = some q) ∧
    (∀ p : Parser, (enter p).indentStack_ = p.current_.indent_ :: p.indentStack_) ∧
    (∀ p q : Parser, leave p = LeaveResult.returned q →
      ∃ last, p.indentStack_ = last :: q.indentStack_) ∧
    (∀ (p q : Parser) (r : Bool), moveNext p = some (r, q) →
      q.indentStack_ = p.indentStack_) := by
  refine ⟨?_, ?_, enter_indentStack, leave_indentStack, ?_⟩
  · intro q hq
    have h := run_indentStack_length ops _ q hq
    rw [create_indentStack] at h
    simp only [List.length_nil] at h
    omega
  · intro he hk hmax
    apply run_returns ops _ (EofShallowest_create start buffer tokens eofToken he hk hmax)
    intro n
    rw [create_indentStack]
    simpa using hbal n
  · intro p q r h
    exact moveNext_indentStack p q r h

/-- Witness for C8 on the example document: `enter()`, `moveNext()`, `enter()`,
`leave()` returns with a stack of depth one. -/
theorem indentStack_balance_witness :
    (∀ n, (([Op.enter, Op.moveNext, Op.enter, Op.leave] : List Op).take n).count Op.leave ≤
      (([Op.enter, Op.moveNext, Op.enter, Op.leave] : List Op).take n).count Op.enter) ∧
    ∃ q, run [Op.enter, Op.moveNext, Op.enter, Op.leave] exampleParser = some q ∧
      (q.indentStack_.length : Int) = 1 := by
  have hbal : ∀ n,
      (([Op.enter, Op.moveNext, Op.enter, Op.leave] : List Op).take n).count Op.leave ≤
      (([Op.enter, Op.moveNext, Op.enter, Op.leave] : List Op).take n).count Op.enter := by
    intro n
    rcases n with _ | _ | _ | _ | _ | n <;> simp [List.count_cons]
  have h := indentStack_balance 1000 exampleText exampleTokens exampleEof
    [Op.enter, Op.moveNext, Op.enter, Op.leave] hbal
  obtain ⟨q, hq⟩ := h.2.1 (by decide) (by decide) (by decide)
  exact ⟨hbal, q, hq, (h.1 q hq).trans (by decide)⟩

/-! ## Typed accessors -/

/-- C9. Enum lookup. On a table made of `(name, value)` pairs followed by a terminating
entry without a name, `enumValue` returns (it has no error path) the value of the first
pair, in table order, whose name equals the cursor's value text byte for byte, and the
value of the terminating entry when no name does. With the table `("A", 1)`, `("B", 2)`,
terminator `0`: the text `B` gives 2 and the text `Z` gives 0. -/
theorem enumValue_first_match (p : Parser) (pairs : List (List Nat × Int)) (sentinel : Int) :
    enumValue p (pairs.map (fun x => { value := x.2, name := some x.1 }) ++
        [{ value := sentinel, name := none }]) =
      some (match pairs.find? (fun x => decide (x.1 = p.valueText)) with
        | some x => x.2
        | none => sentinel) ∧
    enumValue (entryParser (bytesOf "mode") (bytesOf "B")) exampleEnum = some 2 ∧
    enumValue (entryParser (bytesOf "mode") (bytesOf "Z")) exampleEnum = some 0 := by
  refine ⟨?_, by decide, by decide⟩
  induction pairs with
  | nil => rfl
  | cons x xs ih =>
    simp only [List.map_cons, List.cons_append, enumValue, StringRange.equals, List.find?_cons]
    by_cases hx : x.1 = p.valueText
    · have h1 : p.valueRange.bytes p.byteAt = x.1 := hx.symm
      simp [h1, hx]
    · have h1 : ¬ (p.valueRange.bytes p.byteAt = x.1) := fun h => hx h.symm
      simp only [h1, decide_False, Bool.false_eq_true, if_false, hx]
      exact ih

/-- Counterexample to C10 as stated: on the example document, entering the entry `dir`,
which has no sub-section, leaves an empty cursor with no key and no value; `intValue()`
then fails, and the error is not raised at the end of a key (there is none) but through
the scanner's own error path. -/
theorem intValue_error_position_counterexample :
    (enter (enter exampleParser)).current_.keyStart_ = nullptr ∧
    (enter (enter exampleParser)).current_.keyEnd_ = nullptr ∧
    (enter (enter exampleParser)).valueText = [] ∧
    intValue isIntegerText (enter (enter exampleParser)) =
      Except.error (ParseException.atScanner "Expected an integer value like 123") := by
  refine ⟨by decide, by decide, by decide, by rfl⟩

/-- C10, as amended. Integer coercion and its error position, for any recogniser of the
value text. When the text is recognised with value `v`, `intValue()` returns `v`.
Otherwise it returns no value and raises an error described as "Expected an integer
value like 123": at the end of the cursor's key when `keyEnd_` is not null, through the
scanner's own error path when the cursor has no key. With the recogniser of base-10
signed 32-bit integers, on the entry `speed: 123` the result is 123, and on `speed: 12a`
and on `speed: ` (no text) the error is raised at the end of the key `speed`. -/
theorem intValue_result (isInteger : List Nat → Option Int) (p : Parser) :
    (∀ v, isInteger p.valueText = some v → intValue isInteger p = Except.ok v) ∧
    (isInteger p.valueText = none → p.current_.keyEnd_ ≠ nullptr →
      intValue isInteger p = Except.error
        (ParseException.atAddress p.start_ p.current_.keyEnd_
          "Expected an integer value like 123")) ∧
    (isInteger p.valueText = none → p.current_.keyEnd_ = nullptr →
      intValue isInteger p = Except.error
        (ParseException.atScanner "Expected an integer value like 123")) ∧
    intValue isIntegerText (entryParser (bytesOf "speed") (bytesOf "123")) = Except.ok 123 ∧
    intValue isIntegerText (entryParser (bytesOf "speed") (bytesOf "12a")) =
      Except.error (ParseException.atAddress 1000 1005 "Expected an integer value like 123") ∧
    intValue isIntegerText (entryParser (bytesOf "speed") (bytesOf "")) =
      Except.error (ParseException.atAddress 1000 1005 "Expected an integer value like 123") := by
  refine ⟨?_, ?_, ?_, by rfl, by rfl, by rfl⟩
  · intro v hv
    simp [intValue, hv]
  · intro hn hk
    simp [intValue, hn, parseError, hk]
  · intro hn hk
    simp [intValue, hn, parseError, hk]

/-- Witness for C10 as amended: the three branches at concrete cursors, an entry
`speed: 123`, an entry `speed: 12a`, and the empty cursor left by `enter()` on an entry
without a sub-section. -/
theorem intValue_result_witness :
    isIntegerText (entryParser (bytesOf "speed") (bytesOf "123")).valueText = some 123 ∧
    isIntegerText (entryParser (bytesOf "speed") (bytesOf "12a")).valueText = none ∧
    (entryParser (bytesOf "speed") (bytesOf "12a")).current_.keyEnd_ ≠ nullptr ∧
    intValue isIntegerText (entryParser (bytesOf "speed") (bytesOf "12a")) =
      Except.error (ParseException.atAddress
        (entryParser (bytesOf "speed") (bytesOf "12a")).start_
        (entryParser (bytesOf "speed") (bytesOf "12a")).current_.keyEnd_
        "Expected an integer value like 123") ∧
    intValue isIntegerText (enter (enter exampleParser)) =
      Except.error (ParseException.atScanner "Expected an integer value like 123") :=
  ⟨by decide, by decide, by decide,
    (intValue_result isIntegerText (entryParser (bytesOf "speed") (bytesOf "12a"))).2.1
      (by decide) (by decide),
    (intValue_result isIntegerText (enter (enter exampleParser))).2.2.1
      (by decide) (by decide)⟩

/-! ## The fuel of the two loops is enough -/

theorem skipDeeper_none_of_all_deeper (n : Nat) : ∀ (p : Parser),
    (∀ i, (p.upcoming i).indent_ > p.current_.indent_) → skipDeeper n p = none := by
  induction n with
  | zero =>
    intro p h
    have h0 := h 0
    rw [upcoming_zero] at h0
    simp [skipDeeper, h0]
  | succ n ih =>
    intro p h
    have h0 := h 0
    rw [upcoming_zero] at h0
    rw [skipDeeper, if_pos h0]
    apply ih
    intro i
    rw [upcoming_Tokenize, Tokenize_current]
    exact h (i + 1)

/-- The result `none` of `moveNext` stands for a loop that never exits, and for nothing
else: it arises exactly when every token still to come, the end-of-input token
included, is deeper than the cursor. -/
theorem moveNext_eq_none_iff (p : Parser) :
    moveNext p = none ↔ ∀ i, (p.upcoming i).indent_ > p.current_.indent_ := by
  constructor
  · intro h i
    by_contra hi
    obtain ⟨r, q, hq⟩ := moveNext_returns p ⟨i, not_lt.mp hi⟩
    rw [hq] at h
    exact absurd h (by simp)
  · intro h
    unfold moveNext
    rw [skipDeeper_none_of_all_deeper _ p h]

/-- The drain loop of `leave` stops at the first upcoming token that is shallower than
the cursor or of kind end-of-input, having advanced the scanner once for every token
before it. -/
theorem drain_spec (k : Nat) : ∀ (n : Nat) (p : Parser), k ≤ n →
    (∀ i, i < k → (p.upcoming i).indent_ ≥ p.current_.indent_ ∧
      (p.upcoming i).kind_ ≠ TokenKind.Eof) →
    ¬ ((p.upcoming k).indent_ ≥ p.current_.indent_ ∧ (p.upcoming k).kind_ ≠ TokenKind.Eof) →
    drain n p = some (Tokenize^[k] p) := by
  induction k with
  | zero =>
    intro n p _ _ h0
    rw [upcoming_zero] at h0
    cases n with
    | zero => rw [drain, if_neg h0]; rfl
    | succ n => rw [drain, if_neg h0]; rfl
  | succ k ih =>
    intro n p hn hlt hk
    have h0 := hlt 0 (Nat.succ_pos k)
    rw [upcoming_zero] at h0
    cases n with
    | zero => omega
    | succ n =>
      rw [drain, if_pos h0]
      apply ih n (Tokenize p) (by omega)
      · intro i hi
        rw [upcoming_Tokenize, Tokenize_current]
        exact hlt (i + 1) (by omega)
      · rw [upcoming_Tokenize, Tokenize_current]
        exact hk

theorem drain_none_of_all (n : Nat) : ∀ (p : Parser),
    (∀ i, (p.upcoming i).indent_ ≥ p.current_.indent_ ∧
      (p.upcoming i).kind_ ≠ TokenKind.Eof) → drain n p = none := by
  induction n with
  | zero =>
    intro p h
    have h0 := h 0
    rw [upcoming_zero] at h0
    rw [drain, if_pos h0]
  | succ n ih =>
    intro p h
    have h0 := h 0
    rw [upcoming_zero] at h0
    rw [drain, if_pos h0]
    apply ih
    intro i
    rw [upcoming_Tokenize, Tokenize_current]
    exact h (i + 1)

/-- The result `loops` of `leave` stands for a drain loop that never exits, and for
nothing else: it arises exactly when every token still to come, the end-of-input token
included, is at least as deep as the cursor and not of kind end-of-input. -/
theorem leave_eq_loops_iff (p : Parser) :
    leave p = LeaveResult.loops ↔
      ∀ i, (p.upcoming i).indent_ ≥ p.current_.indent_ ∧
        (p.upcoming i).kind_ ≠ TokenKind.Eof := by
  classical
  constructor
  · intro h
    by_contra hne
    have hex : ∃ i, ¬ ((p.upcoming i).indent_ ≥ p.current_.indent_ ∧
        (p.upcoming i).kind_ ≠ TokenKind.Eof) := not_forall.mp hne
    have hmin : ∀ i, i < Nat.find hex → (p.upcoming i).indent_ ≥ p.current_.indent_ ∧
        (p.upcoming i).kind_ ≠ TokenKind.Eof :=
      fun i hi => not_not.mp (Nat.find_min hex hi)
    have hk : Nat.find hex ≤ p.pending.length + 1 := by
      by_contra hgt
      have h1 := hmin (p.pending.length + 1) (by omega)
      have h2 := Nat.find_spec hex
      rw [upcoming_beyond p _ (le_refl _)] at h1
      rw [upcoming_beyond p (Nat.find hex) (by omega)] at h2
      exact h2 h1
    have hs := drain_spec (Nat.find hex) (p.pending.length + 1) p hk hmin (Nat.find_spec hex)
    unfold leave at h
    rw [hs] at h
    simp only at h
    split at h
    · exact absurd h (by simp)
    · split at h <;> exact absurd h (by simp)
  · intro h
    unfold leave
    rw [drain_none_of_all _ p h]

/-! ## The boolean accessor -/

/-- C11. Boolean policy. `boolValue()` is true exactly when the cursor's value text is
the four bytes `true`; for every other text it is false: so for `false`, for `True`
(the comparison is case-sensitive) and for the empty text. The method has no error path
and only reads the state. -/
theorem boolValue_iff_true (p : Parser) :
    (p.boolValue = true ↔ p.valueText = bytesOf "true") ∧
    (p.valueText ≠ bytesOf "true" → p.boolValue = false) ∧
    (entryParser (bytesOf "dir") (bytesOf "true")).boolValue = true ∧
    (entryParser (bytesOf "dir") (bytesOf "false")).boolValue = false ∧
    (entryParser (bytesOf "dir") (bytesOf "True")).boolValue = false ∧
    (entryParser (bytesOf "dir") (bytesOf "")).boolValue = false := by
  have hb : bytesOf "true" = [116, 114, 117, 101] := by decide
  have h1 : p.boolValue = true ↔ p.valueText = bytesOf "true" := by
    rw [hb]
    simp [boolValue, StringRange.equals, valueText]
  refine ⟨h1, ?_, by decide, by decide, by decide, by decide⟩
  intro hne
  cases hv : p.boolValue with
  | false => rfl
  | true => exact absurd (h1.mp hv) hne

/-- Witness for C11: the cursor of the fresh example parser is on `motor`, which has no
value text, so `boolValue()` is false. -/
theorem boolValue_iff_true_witness :
    exampleParser.valueText ≠ bytesOf "true" ∧ exampleParser.boolValue = false :=
  ⟨by decide, (boolValue_iff_true exampleParser).2.1 (by decide)⟩

/-! ## Postconditions of `enter()` and of the constructor -/

/-- C13. Postcondition of `enter()`. The call pushes the cursor's indent on the indent
stack. If the lookahead is deeper than the cursor, the cursor becomes the lookahead and
the scanner advances by one token. Otherwise the cursor becomes an empty entry (no key,
no value, kind end-of-input) whose indent is `INT_MAX`, and the scanner is left as it
is. In both cases the member `indent_` is the new cursor's indent. -/
theorem enter_postcondition (p : Parser) :
    (enter p).indentStack_ = p.current_.indent_ :: p.indentStack_ ∧
    (p.token_.indent_ > p.current_.indent_ →
      (enter p).current_ = p.token_ ∧ (enter p).token_ = p.upcoming 1 ∧
      (enter p).pending = p.pending.tail ∧
      ∀ i, (enter p).upcoming i = p.upcoming (i + 1)) ∧
    (¬ (p.token_.indent_ > p.current_.indent_) →
      (enter p).current_ =
        { keyStart_ := nullptr, keyEnd_ := nullptr, sValueStart_ := nullptr,
          sValueEnd_ := nullptr, kind_ := TokenKind.Eof, indent_ := INT_MAX } ∧
      (enter p).token_ = p.token_ ∧ (enter p).pending = p.pending ∧
      ∀ i, (enter p).upcoming i = p.upcoming i) ∧
    (enter p).indent_ = (enter p).current_.indent_ := by
  refine ⟨enter_indentStack p, ?_, ?_, ?_⟩
  · intro hc
    simp only [enter, hc, if_true]
    refine ⟨?_, ?_, ?_, ?_⟩
    · rw [Tokenize_current]
    · rw [← upcoming_zero, upcoming_Tokenize]; rfl
    · simp only [Tokenize]
      split <;> simp_all
    · intro i
      show (Tokenize _).upcoming i = _
      rw [upcoming_Tokenize]; rfl
  · intro hc
    have he : enter p = { p with
        indentStack_ := p.current_.indent_ :: p.indentStack_,
        current_ := { TokenData.new with indent_ := INT_MAX },
        indent_ := INT_MAX } := by
      simp only [enter, hc, if_false]
    rw [he]
    exact ⟨rfl, rfl, rfl, fun _ => rfl⟩
  · simp only [enter]

/-- Witness for C13 on the example document: entering `motor` (lookahead `dir`, deeper)
and then entering `dir` (lookahead `speed`, not deeper). -/
theorem enter_postcondition_witness :
    exampleParser.token_.indent_ > exampleParser.current_.indent_ ∧
    (enter exampleParser).current_ = exampleEntry 9 12 14 18 2 ∧
    (enter exampleParser).token_ = exampleEntry 21 26 28 31 2 ∧
    ¬ ((enter exampleParser).token_.indent_ > (enter exampleParser).current_.indent_) ∧
    (enter (enter exampleParser)).current_.indent_ = INT_MAX ∧
    (enter (enter exampleParser)).token_ = (enter exampleParser).token_ :=
  ⟨by decide,
    ((enter_postcondition exampleParser).2.1 (by decide)).1.trans (by decide),
    ((enter_postcondition exampleParser).2.1 (by decide)).2.1.trans (by decide),
    by decide,
    (congrArg TokenData.indent_
      ((enter_postcondition (enter exampleParser)).2.2.1 (by decide)).1).trans rfl,
    ((enter_postcondition (enter exampleParser)).2.2.1 (by decide)).2.1⟩

/-- C14. Construction. The token stream is `tokens` followed by the end-of-input token
for ever. If its first token is not of kind end-of-input, the fresh parser has that
token as cursor, the second token as lookahead, and the rest of the stream still to
come. If its first token is of kind end-of-input, cursor and lookahead are both that
token and the scanner has advanced exactly once: the state is the one after a single
`Tokenize()` with the cursor set. In both cases the indent stack is empty. -/
theorem create_postcondition (start : Nat) (buffer : List Nat) (tokens : List TokenData)
    (eofToken : TokenData) :
    ((tokens.getD 0 eofToken).kind_ ≠ TokenKind.Eof →
      (create start buffer tokens eofToken).current_ = tokens.getD 0 eofToken ∧
      (create start buffer tokens eofToken).token_ = tokens.getD 1 eofToken ∧
      ∀ i, (create start buffer tokens eofToken).upcoming i = tokens.getD (i + 1) eofToken) ∧
    ((tokens.getD 0 eofToken).kind_ = TokenKind.Eof →
      (create start buffer tokens eofToken).current_ = tokens.getD 0 eofToken ∧
      (create start buffer tokens eofToken).token_ = tokens.getD 0 eofToken ∧
      (∀ i, (create start buffer tokens eofToken).upcoming i = tokens.getD i eofToken) ∧
      create start buffer tokens eofToken =
        { Tokenize (initial start buffer tokens eofToken) with
          current_ := tokens.getD 0 eofToken }) ∧
    (create start buffer tokens eofToken).indentStack_ = [] := by
  have hup : ∀ i, (Tokenize (initial start buffer tokens eofToken)).upcoming i =
      tokens.getD i eofToken := by
    intro i
    rw [upcoming_Tokenize]
    show (TokenData.new :: tokens).getD (i + 1) eofToken = _
    rw [List.getD_cons_succ]
  have htok : (Tokenize (initial start buffer tokens eofToken)).token_ =
      tokens.getD 0 eofToken := by
    rw [← upcoming_zero]; exact hup 0
  refine ⟨?_, ?_, create_indentStack start buffer tokens eofToken⟩
  · intro hk
    have hc : create start buffer tokens eofToken =
        Tokenize { Tokenize (initial start buffer tokens eofToken) with
          current_ := (Tokenize (initial start buffer tokens eofToken)).token_ } := by
      unfold create
      simp only
      rw [if_pos]
      simp only [htok]
      exact hk
    have hu : ∀ i, (create start buffer tokens eofToken).upcoming i =
        tokens.getD (i + 1) eofToken := by
      intro i
      rw [hc, upcoming_Tokenize]
      exact hup (i + 1)
    refine ⟨?_, ?_, hu⟩
    · rw [hc, Tokenize_current]; exact htok
    · rw [← upcoming_zero]; exact hu 0
  · intro hk
    have hc : create start buffer tokens eofToken =
        { Tokenize (initial start buffer tokens eofToken) with
          current_ := (Tokenize (initial start buffer tokens eofToken)).token_ } := by
      unfold create
      simp only
      rw [if_neg]
      simp only [htok]
      exact not_not.mpr hk
    refine ⟨?_, ?_, ?_, ?_⟩
    · rw [hc]; exact htok
    · rw [hc]; exact htok
    · intro i; rw [hc]; exact hup i
    · rw [hc, htok]

/-- Witness for C14: the example document (first token `motor`, second `dir`) and the
empty document (first token the end-of-input token). -/
theorem create_postcondition_witness :
    exampleParser.current_ = exampleEntry 0 5 0 0 0 ∧
    exampleParser.token_ = exampleEntry 9 12 14 18 2 ∧
    (create 1000 [] [] exampleEof).current_ = exampleEof ∧
    (create 1000 [] [] exampleEof).token_ = exampleEof :=
  ⟨((create_postcondition 1000 exampleText exampleTokens exampleEof).1 (by decide)).1.trans
      (by decide),
    ((create_postcondition 1000 exampleText exampleTokens exampleEof).1 (by decide)).2.1.trans
      (by decide),
    ((create_postcondition 1000 [] [] exampleEof).2.1 (by decide)).1.trans (by decide),
    ((create_postcondition 1000 [] [] exampleEof).2.1 (by decide)).2.1.trans (by decide)⟩

/-! ## `moveNext()` stays on its level -/

theorem Tokenize_indent (p : Parser) : (Tokenize p).indent_ = p.indent_ := by
  unfold Tokenize; split <;> rfl

theorem iterate_Tokenize_indent (k : Nat) (p : Parser) :
    (Tokenize^[k] p).indent_ = p.indent_ := by
  induction k generalizing p with
  | zero => rfl
  | succ k ih => rw [Function.iterate_succ, Function.comp, ih, Tokenize_indent]

/-- A returning `moveNext()` keeps the cursor's indent and the member `indent_`. -/
theorem moveNext_current_indent (p q : Parser) (r : Bool) (h : moveNext p = some (r, q)) :
    q.current_.indent_ = p.current_.indent_ ∧ q.indent_ = p.indent_ := by
  unfold moveNext at h
  cases hs : skipDeeper (p.pending.length + 1) p with
  | none => rw [hs] at h; exact absurd h (by simp)
  | some s =>
    rw [hs] at h
    obtain ⟨k, hk⟩ := skipDeeper_eq_iterate _ _ _ hs
    have hcur : s.current_ = p.current_ := by rw [hk, iterate_Tokenize_current]
    have hind : s.indent_ = p.indent_ := by rw [hk, iterate_Tokenize_indent]
    simp only [Option.some.injEq, Prod.mk.injEq] at h
    obtain ⟨_, hq⟩ := h
    subst hq
    split
    · rename_i heq
      rw [Tokenize_current, Tokenize_indent]
      exact ⟨heq.trans (by rw [hcur]), hind⟩
    · exact ⟨by rw [← hcur], hind⟩

/-- C15. `moveNext()` preserves the level. Whenever the call returns, with either
result, the cursor's indent after it is the cursor's indent before it, and the indent
stack and the member `indent_` are unchanged. -/
theorem moveNext_preserves_level (p q : Parser) (r : Bool)
    (h : moveNext p = some (r, q)) :
    q.current_.indent_ = p.current_.indent_ ∧
    q.indentStack_ = p.indentStack_ ∧
    q.indent_ = p.indent_ :=
  ⟨(moveNext_current_indent p q r h).1, moveNext_indentStack p q r h,
    (moveNext_current_indent p q r h).2⟩

/-- Witness for C15 on the example document: inside the section of `motor`, the call
that moves from `dir` to `speed` (result true) stays at indent 2 with the stack `[0]`. -/
theorem moveNext_preserves_level_witness :
    ∃ q, moveNext (enter exampleParser) = some (true, q) ∧
      q.current_.indent_ = 2 ∧ q.indentStack_ = [0] ∧ q.indent_ = 2 := by
  cases hm : moveNext (enter exampleParser) with
  | none => exact absurd hm (by decide)
  | some rq =>
    obtain ⟨r, q⟩ := rq
    have hr : (moveNext (enter exampleParser)).map Prod.fst = some true := by decide
    rw [hm] at hr
    simp only [Option.map_some', Option.some.injEq] at hr
    subst hr
    obtain ⟨h1, h2, h3⟩ := moveNext_preserves_level (enter exampleParser) q true hm
    exact ⟨q, rfl, h1.trans (by decide), h2.trans (by decide), h3.trans (by decide)⟩

/-! ## Postcondition of `leave()` -/

/-- The first upcoming token at which the drain loop of `leave` stops is found within
the pending tokens or is the end-of-input token right after them. -/
theorem drain_stop_le (p : Parser) (k : Nat)
    (hbefore : ∀ i, i < k → (p.upcoming i).indent_ ≥ p.current_.indent_ ∧
      (p.upcoming i).kind_ ≠ TokenKind.Eof)
    (hstop : ¬ ((p.upcoming k).indent_ ≥ p.current_.indent_ ∧
      (p.upcoming k).kind_ ≠ TokenKind.Eof)) :
    k ≤ p.pending.length + 1 := by
  by_contra hgt
  have h1 := hbefore (p.pending.length + 1) (by omega)
  rw [upcoming_beyond p _ (le_refl _)] at h1
  rw [upcoming_beyond p k (by omega)] at hstop
  exact hstop h1

/-- What `leave()` does on a non-empty stack, in terms of the token at which its drain
loop stops. -/
theorem leave_post (p : Parser) (k : Nat) (last : Int) (below : List Int)
    (hstk : p.indentStack_ = last :: below)
    (hbefore : ∀ i, i < k → (p.upcoming i).indent_ ≥ p.current_.indent_ ∧
      (p.upcoming i).kind_ ≠ TokenKind.Eof)
    (hstop : ¬ ((p.upcoming k).indent_ ≥ p.current_.indent_ ∧
      (p.upcoming k).kind_ ≠ TokenKind.Eof)) :
    ∃ q, leave p = LeaveResult.returned q ∧
      q.indentStack_ = below ∧ q.indent_ = last ∧ q.eofToken = p.eofToken ∧
      ((p.upcoming k).indent_ = last →
        q.current_ = p.upcoming k ∧ ∀ i, q.upcoming i = p.upcoming (k + 1 + i)) ∧
      ((p.upcoming k).indent_ ≠ last →
        q.current_ = { TokenData.new with indent_ := last } ∧
        ∀ i, q.upcoming i = p.upcoming (k + i)) := by
  have hk := drain_stop_le p k hbefore hstop
  have hs := drain_spec k (p.pending.length + 1) p hk hbefore hstop
  have htok : (Tokenize^[k] p).token_ = p.upcoming k := by
    rw [← upcoming_zero, upcoming_iterate_Tokenize]; rfl
  have hstk2 : (Tokenize^[k] p).indentStack_ = last :: below := by
    rw [iterate_Tokenize_indentStack]; exact hstk
  unfold leave
  rw [hs]
  simp only [hstk2]
  by_cases heq : (p.upcoming k).indent_ = last
  · rw [if_pos (by rw [htok]; exact heq.symm)]
    refine ⟨_, rfl, ?_, ?_, ?_, ?_, ?_⟩
    · rw [Tokenize_indentStack]
    · rw [Tokenize_indent]
    · rw [Tokenize_eofToken]
      show (Tokenize^[k] p).eofToken = _
      rw [iterate_Tokenize_eofToken]
    · intro _
      refine ⟨by rw [Tokenize_current]; exact htok, fun i => ?_⟩
      rw [upcoming_Tokenize]
      show (Tokenize^[k] p).upcoming (i + 1) = _
      rw [upcoming_iterate_Tokenize]
      congr 1; omega
    · intro hne; exact absurd heq hne
  · rw [if_neg (by rw [htok]; exact fun h => heq h.symm)]
    refine ⟨_, rfl, rfl, rfl, ?_, ?_, ?_⟩
    · show (Tokenize^[k] p).eofToken = _
      rw [iterate_Tokenize_eofToken]
    · intro h; exact absurd h heq
    · intro _
      refine ⟨rfl, fun i => ?_⟩
      show (Tokenize^[k] p).upcoming i = _
      exact upcoming_iterate_Tokenize k p i

/-- C12. Postcondition of `leave()` on a non-empty indent stack with top `last`. Let the
first `k` upcoming tokens (lookahead first) be the maximal run of tokens that are not
end-of-input and are at least as deep as the cursor. The call returns; it discards
exactly that run, pops `last` and sets the member `indent_` to it. If the lookahead
that remains after the drain, `p.upcoming k`, has indent `last`, the cursor becomes that
token and the lookahead advances by one. Otherwise the cursor becomes an empty entry
(no key, no value) with indent `last`, and the remaining lookahead is not consumed. -/
theorem leave_postcondition (p : Parser) (k : Nat) (last : Int) (below : List Int)
    (hstk : p.indentStack_ = last :: below)
    (hbefore : ∀ i, i < k → (p.upcoming i).indent_ ≥ p.current_.indent_ ∧
      (p.upcoming i).kind_ ≠ TokenKind.Eof)
    (hstop : ¬ ((p.upcoming k).indent_ ≥ p.current_.indent_ ∧
      (p.upcoming k).kind_ ≠ TokenKind.Eof)) :
    ∃ q, leave p = LeaveResult.returned q ∧
      q.indentStack_ = below ∧ q.indent_ = last ∧
      ((p.upcoming k).indent_ = last →
        q.current_ = p.upcoming k ∧ q.token_ = p.upcoming (k + 1) ∧
        ∀ i, q.upcoming i = p.upcoming (k + 1 + i)) ∧
      ((p.upcoming k).indent_ ≠ last →
        q.current_ =
          { keyStart_ := nullptr, keyEnd_ := nullptr, sValueStart_ := nullptr,
            sValueEnd_ := nullptr, kind_ := TokenKind.Eof, indent_ := last } ∧
        q.token_ = p.upcoming k ∧
        ∀ i, q.upcoming i = p.upcoming (k + i)) := by
  obtain ⟨q, hq, h1, h2, _, h3, h4⟩ := leave_post p k last below hstk hbefore hstop
  refine ⟨q, hq, h1, h2, ?_, ?_⟩
  · intro heq
    obtain ⟨hc, hu⟩ := h3 heq
    exact ⟨hc, by rw [← upcoming_zero, hu 0], hu⟩
  · intro hne
    obtain ⟨hc, hu⟩ := h4 hne
    exact ⟨hc, by rw [← upcoming_zero, hu 0]; rfl, hu⟩

/-- Witness for C12 on the example document: inside the section of `motor` with the
cursor on `dir`, `leave()` discards `speed`, stops at `endstop` and makes it the
cursor; the lookahead becomes `pin`. -/
theorem leave_postcondition_witness :
    (enter exampleParser).indentStack_ = [0] ∧
    ∃ q, leave (enter exampleParser) = LeaveResult.returned q ∧
      q.indentStack_ = [] ∧ q.indent_ = 0 ∧
      q.current_ = exampleEntry 32 39 0 0 0 ∧ q.token_ = exampleEntry 43 46 48 54 2 := by
  obtain ⟨q, hq, h1, h2, h3, _⟩ := leave_postcondition (enter exampleParser) 1 0 []
    (by decide) (by decide) (by decide)
  obtain ⟨hc, ht, _⟩ := h3 (by decide)
  exact ⟨by decide, q, hq, h1, h2, hc.trans (by decide), ht.trans (by decide)⟩

/-! ## Termination of the navigation calls -/

theorem exists_first_not_deeper (p : Parser)
    (h : ∃ i, (p.upcoming i).indent_ ≤ p.current_.indent_) :
    ∃ k, k ≤ p.pending.length + 1 ∧
      (∀ i, i < k → (p.upcoming i).indent_ > p.current_.indent_) ∧
      (p.upcoming k).indent_ ≤ p.current_.indent_ := by
  classical
  have hmin : ∀ i, i < Nat.find h → (p.upcoming i).indent_ > p.current_.indent_ :=
    fun i hi => not_le.mp (Nat.find_min h hi)
  exact ⟨Nat.find h, first_not_deeper_le p _ hmin (Nat.find_spec h), hmin, Nat.find_spec h⟩

theorem exists_drain_stop (p : Parser) (he : p.eofToken.kind_ = TokenKind.Eof) :
    ∃ k, k ≤ p.pending.length + 1 ∧
      (∀ i, i < k → (p.upcoming i).indent_ ≥ p.current_.indent_ ∧
        (p.upcoming i).kind_ ≠ TokenKind.Eof) ∧
      ¬ ((p.upcoming k).indent_ ≥ p.current_.indent_ ∧
        (p.upcoming k).kind_ ≠ TokenKind.Eof) := by
  classical
  have hex : ∃ i, ¬ ((p.upcoming i).indent_ ≥ p.current_.indent_ ∧
      (p.upcoming i).kind_ ≠ TokenKind.Eof) := by
    refine ⟨p.pending.length + 1, ?_⟩
    rw [upcoming_beyond p _ (le_refl _)]
    exact fun h => h.2 he
  have hmin : ∀ i, i < Nat.find hex → (p.upcoming i).indent_ ≥ p.current_.indent_ ∧
      (p.upcoming i).kind_ ≠ TokenKind.Eof :=
    fun i hi => not_not.mp (Nat.find_min hex hi)
  exact ⟨Nat.find hex, drain_stop_le p _ hmin (Nat.find_spec hex), hmin, Nat.find_spec hex⟩

/-- What `moveNext()` does, in terms of the first upcoming token that is not deeper
than the cursor. -/
theorem moveNext_post (p : Parser) (k : Nat)
    (hbefore : ∀ i, i < k → (p.upcoming i).indent_ > p.current_.indent_)
    (hfirst : (p.upcoming k).indent_ ≤ p.current_.indent_) :
    ∃ (r : Bool) (q : Parser), moveNext p = some (r, q) ∧
      ((p.upcoming k).indent_ = p.current_.indent_ →
        q.current_ = p.upcoming k ∧ (∀ i, q.upcoming i = p.upcoming (k + 1 + i)) ∧
        (r = true ↔ (p.upcoming k).kind_ ≠ TokenKind.Eof)) ∧
      ((p.upcoming k).indent_ < p.current_.indent_ →
        q.current_ = { p.current_ with kind_ := TokenKind.Eof } ∧
        (∀ i, q.upcoming i = p.upcoming (k + i)) ∧ r = false) := by
  have hk := first_not_deeper_le p k hbefore hfirst
  have hs := skipDeeper_spec k (p.pending.length + 1) p hk hbefore hfirst
  have htok : (Tokenize^[k] p).token_ = p.upcoming k := by
    rw [← upcoming_zero, upcoming_iterate_Tokenize]; rfl
  have hcur := iterate_Tokenize_current k p
  unfold moveNext
  rw [hs]
  by_cases heq : (p.upcoming k).indent_ = p.current_.indent_
  · have hc : (Tokenize^[k] p).token_.indent_ = (Tokenize^[k] p).current_.indent_ := by
      rw [htok, hcur]; exact heq
    simp only [hc, if_true]
    refine ⟨_, _, rfl, ?_, ?_⟩
    · intro _
      refine ⟨by rw [Tokenize_current]; exact htok, fun i => ?_, ?_⟩
      · rw [upcoming_Tokenize]
        show (Tokenize^[k] p).upcoming (i + 1) = _
        rw [upcoming_iterate_Tokenize]
        congr 1; omega
      · rw [Tokenize_current]
        simp [htok]
    · intro hlt
      exact absurd heq (ne_of_lt hlt)
  · have hc : ¬ ((Tokenize^[k] p).token_.indent_ = (Tokenize^[k] p).current_.indent_) := by
      rw [htok, hcur]; exact heq
    simp only [hc, if_false]
    refine ⟨_, _, rfl, ?_, ?_⟩
    · intro h; exact absurd h heq
    · intro _
      refine ⟨by simp [hcur], fun i => ?_, by simp⟩
      show (Tokenize^[k] p).upcoming i = _
      exact upcoming_iterate_Tokenize k p i

theorem EofShallowest_step (op : Op) (p q : Parser) (h : step op p = some q)
    (hp : EofShallowest p) : EofShallowest q := by
  cases op with
  | moveNext =>
    cases hm : moveNext p with
    | none => simp [step, hm] at h
    | some rq =>
      obtain ⟨r, q1⟩ := rq
      simp only [step, hm, Option.map_some', Option.some.injEq] at h
      subst h
      exact EofShallowest_moveNext p q1 r hm hp
  | enter =>
    simp only [step, Option.some.injEq] at h
    subst h; exact EofShallowest_enter p hp
  | leave =>
    simp only [step] at h
    split at h
    · rename_i q1 hl
      cases h
      exact EofShallowest_leave p _ hl hp
    · exact absurd h (by simp)
    · exact absurd h (by simp)

theorem EofShallowest_run (ops : List Op) : ∀ (p q : Parser), run ops p = some q →
    EofShallowest p → EofShallowest q := by
  induction ops with
  | nil => intro p q h hp; simp only [run, Option.some.injEq] at h; subst h; exact hp
  | cons op ops ih =>
    intro p q h hp
    simp only [run, Option.bind_eq_some] at h
    obtain ⟨p1, h1, h2⟩ := h
    exact ih p1 q h2 (EofShallowest_step op p p1 h1 hp)

/-- Counterexample to C16 as stated: a finite token stream, the entry `a` at indent 0
followed by an end-of-input token of indent 2 that is produced again on every advance.
On the freshly constructed parser every token still to come is deeper than the cursor,
so the loop of `moveNext()` never exits. -/
theorem moveNext_loops_counterexample :
    deepEofParser.current_ = exampleEntry 0 1 0 0 0 ∧
    deepEofParser.pending = [] ∧
    deepEofParser.eofToken.kind_ = TokenKind.Eof ∧
    deepEofParser.eofToken.indent_ = 2 ∧
    moveNext deepEofParser = none ∧
    ∀ i, (deepEofParser.upcoming i).indent_ > deepEofParser.current_.indent_ :=
  ⟨by decide, by decide, by decide, by decide, by decide,
    (moveNext_eq_none_iff deepEofParser).mp (by decide)⟩

/-- C16, as amended. Navigation never loops for ever over a finite token stream whose
end-of-input token has kind end-of-input and an indent that is not above that of any
token (nor above `INT_MAX`). In every state reached from construction by
`moveNext()`/`enter()`/balanced `leave()` calls, `moveNext()` returns, and `leave()`
returns when the indent stack is not empty; each does so after `n` advances of the
scanner, where `n` is at most the number of tokens that remain in the stream (the
lookahead, the pending tokens and the end-of-input token). -/
theorem navigation_terminates (start : Nat) (buffer : List Nat) (tokens : List TokenData)
    (eofToken : TokenData) (he : eofToken.kind_ = TokenKind.Eof)
    (hk : ∀ t ∈ tokens, eofToken.indent_ ≤ t.indent_) (hmax : eofToken.indent_ ≤ INT_MAX)
    (ops : List Op) (p : Parser)
    (hreach : run ops (create start buffer tokens eofToken) = some p) :
    (∃ (r : Bool) (q : Parser) (n : Nat), moveNext p = some (r, q) ∧
      n ≤ p.pending.length + 2 ∧ ∀ i, q.upcoming i = p.upcoming (n + i)) ∧
    (p.indentStack_ ≠ [] →
      ∃ (q : Parser) (n : Nat), leave p = LeaveResult.returned q ∧
        n ≤ p.pending.length + 2 ∧ ∀ i, q.upcoming i = p.upcoming (n + i)) := by
  have hp : EofShallowest p :=
    EofShallowest_run ops _ p hreach (EofShallowest_create start buffer tokens eofToken he hk hmax)
  constructor
  · obtain ⟨k, hkle, hbefore, hfirst⟩ := exists_first_not_deeper p
      ⟨p.pending.length + 1, by rw [upcoming_beyond p _ (le_refl _)]; exact hp.2.2.1⟩
    obtain ⟨r, q, hq, h1, h2⟩ := moveNext_post p k hbefore hfirst
    rcases lt_or_eq_of_le hfirst with hlt | heq
    · exact ⟨r, q, k, hq, by omega, (h2 hlt).2.1⟩
    · exact ⟨r, q, k + 1, hq, by omega, (h1 heq).2.1⟩
  · intro hne
    obtain ⟨k, hkle, hbefore, hstop⟩ := exists_drain_stop p hp.1
    cases hstk : p.indentStack_ with
    | nil => exact absurd hstk hne
    | cons last below =>
      obtain ⟨q, hq, _, _, _, h1, h2⟩ := leave_post p k last below hstk hbefore hstop
      by_cases heq : (p.upcoming k).indent_ = last
      · exact ⟨q, k + 1, hq, by omega, (h1 heq).2⟩
      · exact ⟨q, k, hq, by omega, (h2 heq).2⟩

/-- Witness for C16 as amended on the example document, in the state after `enter()`
and one `moveNext()` (cursor on `speed`). -/
theorem navigation_terminates_witness :
    ∃ p, run [Op.enter, Op.moveNext] exampleParser = some p ∧
      (∃ (r : Bool) (q : Parser) (n : Nat), moveNext p = some (r, q) ∧
        n ≤ p.pending.length + 2 ∧ ∀ i, q.upcoming i = p.upcoming (n + i)) := by
  cases hrun : run [Op.enter, Op.moveNext] exampleParser with
  | none => exact absurd hrun (by decide)
  | some p =>
    exact ⟨p, rfl, (navigation_terminates 1000 exampleText exampleTokens exampleEof
      (by decide) (by decide) (by decide) [Op.enter, Op.moveNext] p hrun).1⟩

/-! ## Visiting a section -/

/-- A returning `leave()` pops the top of the stack and gives the cursor that indent. -/
theorem leave_current_indent (p q : Parser) (h : leave p = LeaveResult.returned q) :
    ∃ last, p.indentStack_ = last :: q.indentStack_ ∧ q.current_.indent_ = last := by
  unfold leave at h
  cases hs : drain (p.pending.length + 1) p with
  | none => rw [hs] at h; exact absurd h (by simp)
  | some s =>
    rw [hs] at h
    obtain ⟨k, hk⟩ := drain_eq_iterate _ _ _ hs
    have hstk : s.indentStack_ = p.indentStack_ := by
      rw [hk, iterate_Tokenize_indentStack]
    simp only at h
    split at h
    · exact absurd h (by simp)
    · rename_i last below hcons
      rw [hstk] at hcons
      refine ⟨last, ?_⟩
      split at h
      · rename_i heq
        cases h
        rw [Tokenize_indentStack, Tokenize_current]
        exact ⟨hcons, heq.symm⟩
      · cases h
        exact ⟨hcons, rfl⟩

/-- Successive returning calls of `moveNext()` keep the cursor's indent and the stack. -/
theorem moveNextTimes_level (n : Nat) : ∀ (p s : Parser) (bs : List Bool),
    moveNextTimes n p = some (bs, s) →
    s.current_.indent_ = p.current_.indent_ ∧ s.indentStack_ = p.indentStack_ := by
  induction n with
  | zero =>
    intro p s bs h
    simp only [moveNextTimes, Option.some.injEq, Prod.mk.injEq] at h
    obtain ⟨_, hs⟩ := h
    subst hs
    exact ⟨rfl, rfl⟩
  | succ n ih =>
    intro p s bs h
    unfold moveNextTimes at h
    cases hm : moveNext p with
    | none => rw [hm] at h; exact absurd h (by simp)
    | some rq =>
      obtain ⟨r, q⟩ := rq
      rw [hm] at h
      simp only at h
      cases hrec : moveNextTimes n q with
      | none => rw [hrec] at h; exact absurd h (by simp)
      | some bq =>
        obtain ⟨bs1, s1⟩ := bq
        rw [hrec] at h
        simp only [Option.some.injEq, Prod.mk.injEq] at h
        obtain ⟨_, hs⟩ := h
        subst hs
        obtain ⟨h1, h2⟩ := ih q s1 bs1 hrec
        exact ⟨h1.trans (moveNext_current_indent p q r hm).1,
          h2.trans (moveNext_indentStack p q r hm)⟩

/-- Over a stream whose end-of-input token is shallowest, any number of successive
calls of `moveNext()` return. -/
theorem moveNextTimes_returns (n : Nat) : ∀ (p : Parser), EofShallowest p →
    ∃ bs s, moveNextTimes n p = some (bs, s) ∧ EofShallowest s := by
  induction n with
  | zero => intro p hp; exact ⟨[], p, rfl, hp⟩
  | succ n ih =>
    intro p hp
    obtain ⟨r, q, hm⟩ := moveNext_returns_of_EofShallowest p hp
    obtain ⟨bs, s, hs, hJ⟩ := ih q (EofShallowest_moveNext p q r hm hp)
    exact ⟨r :: bs, s, by simp [moveNextTimes, hm, hs], hJ⟩

/-- C17. A section visit restores the parent level. For every state and every `n`:
whenever `enter()`, then `n` calls of `moveNext()`, then `leave()` all return, the
cursor's indent is again what it was before `enter()` and the indent stack is again
what it was. The calls do all return over a stream whose end-of-input token has kind
end-of-input and is shallowest. -/
theorem section_visit_restores_level (p : Parser) (n : Nat) :
    (∀ (bs : List Bool) (s q : Parser), moveNextTimes n (enter p) = some (bs, s) →
      leave s = LeaveResult.returned q →
      q.current_.indent_ = p.current_.indent_ ∧ q.indentStack_ = p.indentStack_) ∧
    (EofShallowest p →
      ∃ (bs : List Bool) (s q : Parser), moveNextTimes n (enter p) = some (bs, s) ∧
        leave s = LeaveResult.returned q) := by
  constructor
  · intro bs s q hs hq
    obtain ⟨_, hstk⟩ := moveNextTimes_level n (enter p) s bs hs
    rw [enter_indentStack] at hstk
    obtain ⟨last, hlast, hcur⟩ := leave_current_indent s q hq
    rw [hstk] at hlast
    simp only [List.cons.injEq] at hlast
    exact ⟨hcur.trans hlast.1.symm, hlast.2.symm⟩
  · intro hp
    obtain ⟨bs, s, hs, hJ⟩ := moveNextTimes_returns n (enter p) (EofShallowest_enter p hp)
    obtain ⟨_, hstk⟩ := moveNextTimes_level n (enter p) s bs hs
    rw [enter_indentStack] at hstk
    obtain ⟨q, hq⟩ := leave_returns s hJ.1 (by rw [hstk]; simp)
    exact ⟨bs, s, q, hs, hq⟩

/-- Witness for C17 on the example document: entering `motor`, three calls of
`moveNext()` and `leave()` end at indent 0 with an empty stack. -/
theorem section_visit_restores_level_witness :
    ∃ (bs : List Bool) (s q : Parser),
      moveNextTimes 3 (enter exampleParser) = some (bs, s) ∧
      leave s = LeaveResult.returned q ∧
      q.current_.indent_ = 0 ∧ q.indentStack_ = [] := by
  have hJ : EofShallowest exampleParser :=
    EofShallowest_create 1000 exampleText exampleTokens exampleEof
      (by decide) (by decide) (by decide)
  obtain ⟨bs, s, q, hs, hq⟩ := (section_visit_restores_level exampleParser 3).2 hJ
  obtain ⟨h1, h2⟩ := (section_visit_restores_level exampleParser 3).1 bs s q hs hq
  exact ⟨bs, s, q, hs, hq, h1.trans (by decide), h2.trans (by decide)⟩

/-! ## An empty section -/

theorem Tokenize_pending (p : Parser) : (Tokenize p).pending = p.pending.tail := by
  unfold Tokenize
  cases h : p.pending with
  | nil => simp [h]
  | cons t ts => simp

/-- After `enter()` into an empty section below a cursor of indent less than `INT_MAX`,
`moveNext()` returns false and leaves the state as it is. -/
theorem moveNext_in_empty_section (p : Parser) (hc : p.current_.indent_ < INT_MAX)
    (ht : p.token_.indent_ ≤ p.current_.indent_) :
    moveNext (enter p) = some (false, enter p) := by
  have he : enter p = { p with
      indentStack_ := p.current_.indent_ :: p.indentStack_,
      current_ := { TokenData.new with indent_ := INT_MAX },
      indent_ := INT_MAX } := by
    simp only [enter, not_lt.mpr ht, if_false]
  have h1 : ¬ (p.token_.indent_ > INT_MAX) := by omega
  have h2 : ¬ (p.token_.indent_ = INT_MAX) := by omega
  rw [he]
  simp [moveNext, skipDeeper, h1, h2, TokenData.new]

/-- C19. An empty section loses no token. In a state whose cursor has indent
`c < INT_MAX` and whose lookahead `t` is not deeper than the cursor: after `enter()`
each of `n` calls of `moveNext()` returns false and leaves the state, hence the scanner,
as it is; the drain loop of the following `leave()` discards nothing; and `leave()`
returns with the indent stack of before `enter()`. If `t` has indent `c`, the cursor is
then `t` and the scanner has advanced by exactly one token; otherwise the cursor is an
empty entry with indent `c` and the lookahead is still `t`. -/
theorem empty_section_loses_no_token (p : Parser) (n : Nat)
    (hc : p.current_.indent_ < INT_MAX) (ht : p.token_.indent_ ≤ p.current_.indent_) :
    moveNextTimes n (enter p) = some (List.replicate n false, enter p) ∧
    (enter p).token_ = p.token_ ∧ (enter p).pending = p.pending ∧
    drain ((enter p).pending.length + 1) (enter p) = some (enter p) ∧
    ∃ q, leave (enter p) = LeaveResult.returned q ∧
      q.indentStack_ = p.indentStack_ ∧
      (p.token_.indent_ = p.current_.indent_ →
        q.current_ = p.token_ ∧ q.token_ = p.upcoming 1 ∧ q.pending = p.pending.tail ∧
        ∀ i, q.upcoming i = p.upcoming (i + 1)) ∧
      (p.token_.indent_ ≠ p.current_.indent_ →
        q.current_ =
          { keyStart_ := nullptr, keyEnd_ := nullptr, sValueStart_ := nullptr,
            sValueEnd_ := nullptr, kind_ := TokenKind.Eof, indent_ := p.current_.indent_ } ∧
        q.token_ = p.token_ ∧ q.pending = p.pending) := by
  have he : enter p = { p with
      indentStack_ := p.current_.indent_ :: p.indentStack_,
      current_ := { TokenData.new with indent_ := INT_MAX },
      indent_ := INT_MAX } := by
    simp only [enter, not_lt.mpr ht, if_false]
  have hd : ¬ ((enter p).token_.indent_ ≥ (enter p).current_.indent_ ∧
      (enter p).token_.kind_ ≠ TokenKind.Eof) := by
    rw [he]
    intro h
    have : INT_MAX ≤ p.token_.indent_ := h.1
    omega
  have hdrain : drain ((enter p).pending.length + 1) (enter p) = some (enter p) := by
    rw [drain, if_neg hd]
  refine ⟨moveNextTimes_fixed (enter p) (moveNext_in_empty_section p hc ht) n,
    by rw [he], by rw [he], hdrain, ?_⟩
  unfold leave
  rw [hdrain]
  simp only [enter_indentStack]
  by_cases heq : p.token_.indent_ = p.current_.indent_
  · have h1 : p.current_.indent_ = (enter p).token_.indent_ := by rw [he]; exact heq.symm
    rw [if_pos h1]
    refine ⟨_, rfl, by rw [Tokenize_indentStack], ?_, fun hne => absurd heq hne⟩
    intro _
    have hu : ∀ i, (Tokenize { enter p with
        indent_ := p.current_.indent_, indentStack_ := p.indentStack_,
        current_ := (enter p).token_ }).upcoming i = p.upcoming (i + 1) := by
      intro i
      rw [upcoming_Tokenize, he]
      rfl
    refine ⟨by rw [Tokenize_current, he], ?_, ?_, hu⟩
    · rw [← upcoming_zero]; exact hu 0
    · rw [Tokenize_pending, he]
  · have h1 : ¬ (p.current_.indent_ = (enter p).token_.indent_) := by
      rw [he]; exact fun h => heq h.symm
    rw [if_neg h1]
    refine ⟨_, rfl, rfl, fun h => absurd h heq, fun _ => ⟨rfl, by rw [he], by rw [he]⟩⟩

/-- Witness for C19 on the example document: inside the section of `motor` the entry
`dir` has no sub-section; entering it, two calls of `moveNext()` and `leave()` end with
the cursor on `speed`, the token that was the lookahead. -/
theorem empty_section_loses_no_token_witness :
    (enter exampleParser).current_.indent_ < INT_MAX ∧
    (enter exampleParser).token_.indent_ = (enter exampleParser).current_.indent_ ∧
    moveNextTimes 2 (enter (enter exampleParser)) =
      some ([false, false], enter (enter exampleParser)) ∧
    ∃ q, leave (enter (enter exampleParser)) = LeaveResult.returned q ∧
      q.indentStack_ = [0] ∧ q.current_ = exampleEntry 21 26 28 31 2 := by
  obtain ⟨h1, _, _, _, q, hq, hs, h2, _⟩ :=
    empty_section_loses_no_token (enter exampleParser) 2 (by decide) (by decide)
  exact ⟨by decide, by decide, h1, q, hq, hs.trans (by decide),
    (h2 (by decide)).1.trans (by decide)⟩

/-! ## Visiting a section and skipping it -/

/-- Inside a section at indent `d` that ends at position `k` of the stream `u` with a
shallower token, a call of `moveNext()` returns, stays at indent `d`, and does not
advance past position `k`. -/
theorem section_moveNext (u : Nat → TokenData) (d : Int) (k : Nat)
    (hend : (u k).indent_ < d) (s : Parser) (hcur : s.current_.indent_ = d)
    (j : Nat) (hj : j ≤ k) (hu : ∀ i, s.upcoming i = u (j + i)) :
    ∃ (r : Bool) (s1 : Parser) (j1 : Nat), moveNext s = some (r, s1) ∧
      s1.current_.indent_ = d ∧ j1 ≤ k ∧ ∀ i, s1.upcoming i = u (j1 + i) := by
  have hex : ∃ i, (s.upcoming i).indent_ ≤ s.current_.indent_ := by
    refine ⟨k - j, ?_⟩
    rw [hu, hcur, Nat.add_sub_cancel' hj]
    exact le_of_lt hend
  obtain ⟨m, _, hbefore, hfirst⟩ := exists_first_not_deeper s hex
  have hm : m ≤ k - j := by
    by_contra hgt
    have h1 := hbefore (k - j) (by omega)
    rw [hu, hcur, Nat.add_sub_cancel' hj] at h1
    exact absurd hend (not_lt.mpr (le_of_lt h1))
  obtain ⟨r, s1, hs1, h1, h2⟩ := moveNext_post s m hbefore hfirst
  have hlevel := (moveNext_current_indent s s1 r hs1).1
  rcases lt_or_eq_of_le hfirst with hlt | heq
  · refine ⟨r, s1, j + m, hs1, hlevel.trans hcur, by omega, fun i => ?_⟩
    rw [(h2 hlt).2.1 i, hu]
    congr 1; omega
  · have hne : m ≠ k - j := by
      intro hmk
      rw [hmk, hu, hcur, Nat.add_sub_cancel' hj] at heq
      exact absurd heq (ne_of_lt hend)
    refine ⟨r, s1, j + m + 1, hs1, hlevel.trans hcur, by omega, fun i => ?_⟩
    rw [(h1 heq).2.1 i, hu]
    congr 1; omega

theorem section_moveNextTimes (u : Nat → TokenData) (d : Int) (k : Nat)
    (hend : (u k).indent_ < d) (n : Nat) : ∀ (s : Parser), s.current_.indent_ = d →
    ∀ (j : Nat), j ≤ k → (∀ i, s.upcoming i = u (j + i)) →
    ∃ (bs : List Bool) (s1 : Parser) (j1 : Nat), moveNextTimes n s = some (bs, s1) ∧
      s1.current_.indent_ = d ∧ j1 ≤ k ∧ ∀ i, s1.upcoming i = u (j1 + i) := by
  induction n with
  | zero => intro s hcur j hj hu; exact ⟨[], s, j, rfl, hcur, hj, hu⟩
  | succ n ih =>
    intro s hcur j hj hu
    obtain ⟨r, s1, j1, hs1, hc1, hj1, hu1⟩ := section_moveNext u d k hend s hcur j hj hu
    obtain ⟨bs, s2, j2, hs2, hc2, hj2, hu2⟩ := ih s1 hc1 j1 hj1 hu1
    exact ⟨r :: bs, s2, j2, by simp [moveNextTimes, hs1, hs2], hc2, hj2, hu2⟩

/-- Inside a section at indent `d` whose tokens up to position `k` of the stream `u`
are entries at least that deep, and which ends at position `k` with a token at the
parent indent, `leave()` drains up to that token and makes it the cursor. -/
theorem section_leave (u : Nat → TokenData) (d c : Int) (below : List Int) (k : Nat)
    (hsec : ∀ i, i < k → (u i).indent_ ≥ d ∧ (u i).kind_ ≠ TokenKind.Eof)
    (hend : (u k).indent_ = c) (hcd : c < d) (s : Parser) (hcur : s.current_.indent_ = d)
    (hstk : s.indentStack_ = c :: below)
    (j : Nat) (hj : j ≤ k) (hu : ∀ i, s.upcoming i = u (j + i)) :
    ∃ q, leave s = LeaveResult.returned q ∧ q.current_ = u k ∧
      (∀ i, q.upcoming i = u (k + 1 + i)) ∧ q.indentStack_ = below := by
  have hbefore : ∀ i, i < k - j → (s.upcoming i).indent_ ≥ s.current_.indent_ ∧
      (s.upcoming i).kind_ ≠ TokenKind.Eof := by
    intro i hi
    rw [hu, hcur]
    exact hsec (j + i) (by omega)
  have hlast : s.upcoming (k - j) = u k := by
    rw [hu, Nat.add_sub_cancel' hj]
  have hstop : ¬ ((s.upcoming (k - j)).indent_ ≥ s.current_.indent_ ∧
      (s.upcoming (k - j)).kind_ ≠ TokenKind.Eof) := by
    rw [hlast, hcur, hend]
    intro h
    exact absurd hcd (not_lt.mpr h.1)
  obtain ⟨q, hq, h1, _, _, h2, _⟩ := leave_post s (k - j) c below hstk hbefore hstop
  obtain ⟨hc, hup⟩ := h2 (by rw [hlast]; exact hend)
  refine ⟨q, hq, hc.trans hlast, fun i => ?_, h1⟩
  rw [hup, hu]
  congr 1; omega

/-- C18. Visiting a section and skipping it reach the same place. In a state whose
cursor has indent `c` and whose lookahead has a greater indent `d`, where the first `k`
upcoming tokens (the lookahead first) are entries of indent at least `d` and the next
one, `t = p.upcoming k`, has indent `c`: for every `n`, the calls `enter()`, `n` times
`moveNext()`, `leave()` all return, as does a single `moveNext()` from the same state,
and both end with the cursor on `t`, the lookahead on the token after `t`, the same
tokens still to come and the indent stack of the start. -/
theorem visit_equals_skip (p : Parser) (k n : Nat)
    (hd : p.token_.indent_ > p.current_.indent_)
    (hsec : ∀ i, i < k → (p.upcoming i).indent_ ≥ p.token_.indent_ ∧
      (p.upcoming i).kind_ ≠ TokenKind.Eof)
    (hend : (p.upcoming k).indent_ = p.current_.indent_) :
    ∃ (bs : List Bool) (s visited : Parser) (r : Bool) (skipped : Parser),
      moveNextTimes n (enter p) = some (bs, s) ∧
      leave s = LeaveResult.returned visited ∧
      moveNext p = some (r, skipped) ∧
      visited.current_ = p.upcoming k ∧ skipped.current_ = p.upcoming k ∧
      visited.token_ = p.upcoming (k + 1) ∧ skipped.token_ = p.upcoming (k + 1) ∧
      (∀ i, visited.upcoming i = skipped.upcoming i) ∧
      visited.indentStack_ = p.indentStack_ ∧ skipped.indentStack_ = p.indentStack_ := by
  have hk : 1 ≤ k := by
    by_contra h0
    have hz : k = 0 := by omega
    rw [hz, upcoming_zero] at hend
    exact absurd hend (ne_of_gt hd)
  -- the visit
  have he : enter p = { Tokenize { p with
      indentStack_ := p.current_.indent_ :: p.indentStack_, current_ := p.token_ } with
      indent_ := p.token_.indent_ } := by
    simp only [enter, hd, if_true, Tokenize_current]
  have hecur : (enter p).current_.indent_ = p.token_.indent_ := by
    rw [he]
    show (Tokenize _).current_.indent_ = _
    rw [Tokenize_current]
  have heup : ∀ i, (enter p).upcoming i = p.upcoming (1 + i) := by
    intro i
    rw [he]
    show (Tokenize _).upcoming i = _
    rw [upcoming_Tokenize]
    show p.upcoming (i + 1) = _
    congr 1; omega
  have hlt : (p.upcoming k).indent_ < p.token_.indent_ := by rw [hend]; exact hd
  obtain ⟨bs, s, j, hs, hscur, hj, hsu⟩ :=
    section_moveNextTimes p.upcoming p.token_.indent_ k hlt n (enter p) hecur 1 hk heup
  have hsstk : s.indentStack_ = p.current_.indent_ :: p.indentStack_ := by
    rw [(moveNextTimes_level n (enter p) s bs hs).2, enter_indentStack]
  obtain ⟨visited, hv, hvc, hvu, hvs⟩ :=
    section_leave p.upcoming p.token_.indent_ p.current_.indent_ p.indentStack_ k
      hsec hend hd s hscur hsstk j hj hsu
  -- the skip
  have hbefore : ∀ i, i < k → (p.upcoming i).indent_ > p.current_.indent_ :=
    fun i hi => lt_of_lt_of_le hd (hsec i hi).1
  obtain ⟨r, skipped, hm, h1, _⟩ := moveNext_post p k hbefore (le_of_eq hend)
  obtain ⟨hsc, hsu2, _⟩ := h1 hend
  refine ⟨bs, s, visited, r, skipped, hs, hv, hm, hvc, hsc, ?_, ?_, ?_, hvs,
    moveNext_indentStack p skipped r hm⟩
  · rw [← upcoming_zero, hvu 0]
  · rw [← upcoming_zero, hsu2 0]
  · intro i; rw [hvu, hsu2]

/-- Witness for C18 on the example document: from the fresh parser (cursor `motor`,
lookahead `dir`), visiting the section with two calls of `moveNext()` and skipping it
both end with the cursor on `endstop` and the lookahead on `pin`. -/
theorem visit_equals_skip_witness :
    ∃ (bs : List Bool) (s visited : Parser) (r : Bool) (skipped : Parser),
      moveNextTimes 2 (enter exampleParser) = some (bs, s) ∧
      leave s = LeaveResult.returned visited ∧
      moveNext exampleParser = some (r, skipped) ∧
      visited.current_ = exampleEntry 32 39 0 0 0 ∧
      skipped.current_ = exampleEntry 32 39 0 0 0 ∧
      visited.token_ = exampleEntry 43 46 48 54 2 ∧
      skipped.token_ = exampleEntry 43 46 48 54 2 ∧
      visited.indentStack_ = skipped.indentStack_ := by
  obtain ⟨bs, s, visited, r, skipped, h1, h2, h3, h4, h5, h6, h7, _, h9, h10⟩ :=
    visit_equals_skip exampleParser 2 2 (by decide) (by decide) (by decide)
  exact ⟨bs, s, visited, r, skipped, h1, h2, h3, h4.trans (by decide), h5.trans (by decide),
    h6.trans (by decide), h7.trans (by decide), h9.trans h10.symm⟩

/-! ## `leave()` on an empty stack -/

/-- C5, as amended. `leave()` does not check the indent stack and signals no contract
violation. In every state whose indent stack is empty, with `k` the length of the
maximal run of upcoming tokens (lookahead first) that are not end-of-input and are at
least as deep as the cursor: the call first discards exactly that run, so that the
lookahead becomes `p.upcoming k`, and then comes to evaluate `indentStack_.top()` on the
empty stack, with the cursor, the stack and `indent_` still as they were. That step is
undefined behaviour; how the call goes on from there is not determined by the code. -/
theorem leave_unmatched (p : Parser) (k : Nat) (hempty : p.indentStack_ = [])
    (hbefore : ∀ i, i < k → (p.upcoming i).indent_ ≥ p.current_.indent_ ∧
      (p.upcoming i).kind_ ≠ TokenKind.Eof)
    (hstop : ¬ ((p.upcoming k).indent_ ≥ p.current_.indent_ ∧
      (p.upcoming k).kind_ ≠ TokenKind.Eof)) :
    ∃ q, leave p = LeaveResult.undefined q ∧
      q.token_ = p.upcoming k ∧ (∀ i, q.upcoming i = p.upcoming (k + i)) ∧
      q.current_ = p.current_ ∧ q.indentStack_ = [] ∧ q.indent_ = p.indent_ := by
  have hk := drain_stop_le p k hbefore hstop
  have hs := drain_spec k (p.pending.length + 1) p hk hbefore hstop
  have hstk : (Tokenize^[k] p).indentStack_ = [] := by
    rw [iterate_Tokenize_indentStack]; exact hempty
  refine ⟨Tokenize^[k] p, ?_, ?_, upcoming_iterate_Tokenize k p,
    iterate_Tokenize_current k p, hstk, iterate_Tokenize_indent k p⟩
  · unfold leave
    rw [hs]
    simp only [hstk]
  · rw [← upcoming_zero, upcoming_iterate_Tokenize]; rfl

/-- Witness for C5 as amended, on the freshly constructed parser of the example
document (cursor `motor` at indent 0, empty stack): the drain discards all four
remaining entries before the empty stack is read. -/
theorem leave_unmatched_witness :
    exampleParser.indentStack_ = [] ∧
    ∃ q, leave exampleParser = LeaveResult.undefined q ∧
      q.token_ = exampleEof ∧ q.current_ = exampleEntry 0 5 0 0 0 ∧
      q.indentStack_ = [] := by
  obtain ⟨q, hq, ht, _, hc, hs, _⟩ :=
    leave_unmatched exampleParser 4 (by decide) (by decide) (by decide)
  exact ⟨by decide, q, hq, ht.trans (by decide), hc.trans (by decide), hs⟩

/-! ## `enter()` immediately followed by `leave()` -/

/-- The section that `enter()` opens: its depth `d` is the lookahead's indent when the
lookahead is deeper than the cursor, and `enter()` then consumes `j = 1` token; else
the section is empty, `d` is `INT_MAX` and `j = 0`. -/
theorem enter_section (p : Parser) (j : Nat) (d : Int)
    (hsection : (p.token_.indent_ > p.current_.indent_ ∧ d = p.token_.indent_ ∧ j = 1) ∨
      (¬ (p.token_.indent_ > p.current_.indent_) ∧ d = INT_MAX ∧ j = 0)) :
    (enter p).current_.indent_ = d ∧ ∀ i, (enter p).upcoming i = p.upcoming (j + i) := by
  rcases hsection with ⟨hd, hdd, hj⟩ | ⟨hd, hdd, hj⟩
  · have he : enter p = { Tokenize { p with
        indentStack_ := p.current_.indent_ :: p.indentStack_, current_ := p.token_ } with
        indent_ := p.token_.indent_ } := by
      simp only [enter, hd, if_true, Tokenize_current]
    subst hdd hj
    refine ⟨?_, fun i => ?_⟩
    · rw [he]
      show (Tokenize _).current_.indent_ = _
      rw [Tokenize_current]
    · rw [he]
      show (Tokenize _).upcoming i = _
      rw [upcoming_Tokenize]
      show p.upcoming (i + 1) = _
      congr 1; omega
  · have he : enter p = { p with
        indentStack_ := p.current_.indent_ :: p.indentStack_,
        current_ := { TokenData.new with indent_ := INT_MAX },
        indent_ := INT_MAX } := by
      simp only [enter, hd, if_false]
    subst hdd hj
    refine ⟨by rw [he], fun i => ?_⟩
    rw [he]
    show p.upcoming i = _
    congr 1; omega

/-- When the end-of-input token has kind end-of-input, the section that `enter()` opens
has an end: a first token, after those `enter()` consumed, that is end-of-input or
shallower than the section. -/
theorem exists_section_end (p : Parser) (he : p.eofToken.kind_ = TokenKind.Eof) :
    ∃ (k j : Nat) (d : Int),
      ((p.token_.indent_ > p.current_.indent_ ∧ d = p.token_.indent_ ∧ j = 1) ∨
        (¬ (p.token_.indent_ > p.current_.indent_) ∧ d = INT_MAX ∧ j = 0)) ∧
      j ≤ k ∧
      (∀ i, j ≤ i → i < k → (p.upcoming i).indent_ ≥ d ∧
        (p.upcoming i).kind_ ≠ TokenKind.Eof) ∧
      ¬ ((p.upcoming k).indent_ ≥ d ∧ (p.upcoming k).kind_ ≠ TokenKind.Eof) := by
  have hjd : ∃ (j : Nat) (d : Int),
      (p.token_.indent_ > p.current_.indent_ ∧ d = p.token_.indent_ ∧ j = 1) ∨
      (¬ (p.token_.indent_ > p.current_.indent_) ∧ d = INT_MAX ∧ j = 0) := by
    by_cases hd : p.token_.indent_ > p.current_.indent_
    · exact ⟨1, p.token_.indent_, Or.inl ⟨hd, rfl, rfl⟩⟩
    · exact ⟨0, INT_MAX, Or.inr ⟨hd, rfl, rfl⟩⟩
  obtain ⟨j, d, hsection⟩ := hjd
  obtain ⟨hcur, hup⟩ := enter_section p j d hsection
  obtain ⟨m, _, hbefore, hstop⟩ := exists_drain_stop (enter p)
    (by rw [enter_eofToken]; exact he)
  refine ⟨j + m, j, d, hsection, by omega, ?_, ?_⟩
  · intro i hji hi
    have := hbefore (i - j) (by omega)
    rw [hup, hcur, Nat.add_sub_cancel' hji] at this
    exact this
  · rw [hup, hcur] at hstop
    exact hstop

/-- C3, as amended. `enter()` immediately followed by `leave()` restores the level, not
the entry. Let `d` be the depth of the section `enter()` opens (the lookahead's indent
when it is deeper than the cursor, `enter()` then consuming `j = 1` token; `INT_MAX` and
`j = 0` otherwise), and let `t = p.upcoming k` be the first token after those `enter()`
consumed that is end-of-input or shallower than `d`. The pair of calls returns; the
cursor's indent, the indent stack and `indent_` are the cursor's indent and the stack of
before `enter()`. If `t` has the cursor's old indent, the new cursor is `t`, the next
entry at the parent level, and the lookahead is the token after `t`. Otherwise the new
cursor is an empty entry (no key, no value) carrying the old indent and the lookahead is
`t`. Every token before `t` is discarded. -/
theorem enter_leave_restores_level (p : Parser) (k j : Nat) (d : Int)
    (hsection : (p.token_.indent_ > p.current_.indent_ ∧ d = p.token_.indent_ ∧ j = 1) ∨
      (¬ (p.token_.indent_ > p.current_.indent_) ∧ d = INT_MAX ∧ j = 0))
    (hjk : j ≤ k)
    (hbefore : ∀ i, j ≤ i → i < k → (p.upcoming i).indent_ ≥ d ∧
      (p.upcoming i).kind_ ≠ TokenKind.Eof)
    (hstop : ¬ ((p.upcoming k).indent_ ≥ d ∧ (p.upcoming k).kind_ ≠ TokenKind.Eof)) :
    ∃ q, leave (enter p) = LeaveResult.returned q ∧
      q.current_.indent_ = p.current_.indent_ ∧
      q.indentStack_ = p.indentStack_ ∧
      q.indent_ = p.current_.indent_ ∧
      ((p.upcoming k).indent_ = p.current_.indent_ →
        q.current_ = p.upcoming k ∧ q.token_ = p.upcoming (k + 1) ∧
        ∀ i, q.upcoming i = p.upcoming (k + 1 + i)) ∧
      ((p.upcoming k).indent_ ≠ p.current_.indent_ →
        q.current_ =
          { keyStart_ := nullptr, keyEnd_ := nullptr, sValueStart_ := nullptr,
            sValueEnd_ := nullptr, kind_ := TokenKind.Eof, indent_ := p.current_.indent_ } ∧
        q.token_ = p.upcoming k ∧
        ∀ i, q.upcoming i = p.upcoming (k + i)) := by
  obtain ⟨hcur, hup⟩ := enter_section p j d hsection
  have hlast : (enter p).upcoming (k - j) = p.upcoming k := by
    rw [hup, Nat.add_sub_cancel' hjk]
  have hb : ∀ i, i < k - j → ((enter p).upcoming i).indent_ ≥ (enter p).current_.indent_ ∧
      ((enter p).upcoming i).kind_ ≠ TokenKind.Eof := by
    intro i hi
    rw [hup, hcur]
    exact hbefore (j + i) (by omega) (by omega)
  have hs : ¬ (((enter p).upcoming (k - j)).indent_ ≥ (enter p).current_.indent_ ∧
      ((enter p).upcoming (k - j)).kind_ ≠ TokenKind.Eof) := by
    rw [hlast, hcur]; exact hstop
  obtain ⟨q, hq, h1, h2, _, h3, h4⟩ :=
    leave_post (enter p) (k - j) p.current_.indent_ p.indentStack_ (enter_indentStack p) hb hs
  rw [hlast] at h3 h4
  have hshift1 : ∀ i, (enter p).upcoming (k - j + 1 + i) = p.upcoming (k + 1 + i) := by
    intro i; rw [hup]; congr 1; omega
  have hshift0 : ∀ i, (enter p).upcoming (k - j + i) = p.upcoming (k + i) := by
    intro i; rw [hup]; congr 1; omega
  refine ⟨q, hq, ?_, h1, h2, ?_, ?_⟩
  · by_cases heq : (p.upcoming k).indent_ = p.current_.indent_
    · rw [(h3 heq).1]; exact heq
    · rw [(h4 heq).1]
  · intro heq
    obtain ⟨hc, hu⟩ := h3 heq
    refine ⟨hc, ?_, fun i => (hu i).trans (hshift1 i)⟩
    rw [← upcoming_zero, hu 0, hshift1 0]
  · intro hne
    obtain ⟨hc, hu⟩ := h4 hne
    refine ⟨hc, ?_, fun i => (hu i).trans (hshift0 i)⟩
    rw [← upcoming_zero, hu 0, hshift0 0]; rfl

/-- Witness for C3 as amended on the example document. From the fresh parser (cursor
`motor`, lookahead `dir` at depth 2) the section ends at `endstop`, third of the
upcoming tokens, which becomes the cursor. From the cursor `dir` inside that section
(lookahead `speed`, not deeper) the section is empty and `speed` becomes the cursor. -/
theorem enter_leave_restores_level_witness :
    (∃ q, leave (enter exampleParser) = LeaveResult.returned q ∧
      q.current_ = exampleEntry 32 39 0 0 0 ∧ q.token_ = exampleEntry 43 46 48 54 2 ∧
      q.indentStack_ = []) ∧
    (∃ q, leave (enter (enter exampleParser)) = LeaveResult.returned q ∧
      q.current_ = exampleEntry 21 26 28 31 2 ∧ q.indentStack_ = [0]) := by
  constructor
  · obtain ⟨q, hq, _, hs, _, h3, _⟩ := enter_leave_restores_level exampleParser 2 1 2
      (Or.inl (by decide)) (by decide) (by decide) (by decide)
    obtain ⟨hc, ht, _⟩ := h3 (by decide)
    exact ⟨q, hq, hc.trans (by decide), ht.trans (by decide), hs.trans (by decide)⟩
  · obtain ⟨q, hq, _, hs, _, h3, _⟩ :=
      enter_leave_restores_level (enter exampleParser) 0 0 INT_MAX
        (Or.inr (by decide)) (by decide) (by decide) (by decide)
    obtain ⟨hc, _, _⟩ := h3 (by decide)
    exact ⟨q, hq, hc.trans (by decide), hs.trans (by decide)⟩

end Parser
end Configuration
